import Mathlib

/-!
Verification of the core commit-graph transformation of the git-toprepo tool,
as implemented in `src/repo.rs`. The embedding models:

* `TopRepo::rewrite_push_message` (split-direction commit-message rewriting),
* the redundant-push collapse in `TopRepo::push`,
* `ThinCommit::new_rc`, `ThinCommit::is_descendant_of`, `ThinCommit::get_submodule`,
* `MonoRepoCommit::new_rc`,
* the per-commit grouping / topic check and per-group parent computation of
  `TopRepo::push`, and
* `TopRepo::resolve_push_repo`.

Git byte paths (`GitPath`) and message bytes are modelled as `List Char`;
commit ids as `Nat`; hash sets as lists used up to membership.
-/

set_option autoImplicit false

abbrev CommitId := Nat
abbrev GitPath := List Char

/-! ### String helpers modelling Rust `str` operations -/

/-- Models Rust `str::strip_prefix`: returns the remainder when `p` is a
prefix of `l`, else `none`. -/
def stripPrefixCh : List Char → List Char → Option (List Char)
  | [], l => some l
  | _ :: _, [] => none
  | a :: as, b :: bs => if a = b then stripPrefixCh as bs else none

/-- Models Rust `str::starts_with`. -/
def startsWithCh (p l : List Char) : Bool :=
  (stripPrefixCh p l).isSome

theorem stripPrefixCh_eq_some {p l r : List Char} :
    stripPrefixCh p l = some r ↔ l = p ++ r := by
  induction p generalizing l with
  | nil => simp [stripPrefixCh]
  | cons a as ih =>
    cases l with
    | nil => simp [stripPrefixCh]
    | cons b bs =>
      by_cases hab : a = b
      · subst hab
        simp [stripPrefixCh, ih]
      · simp [stripPrefixCh, hab, Ne.symm hab]

theorem startsWithCh_true {p l : List Char} :
    startsWithCh p l = true ↔ ∃ r, l = p ++ r := by
  unfold startsWithCh
  rcases h : stripPrefixCh p l with _ | r
  · constructor
    · intro hsome
      simp [h] at hsome
    · rintro ⟨r, rfl⟩
      have : stripPrefixCh p (p ++ r) = some r := stripPrefixCh_eq_some.mpr rfl
      rw [this] at h
      cases h
  · simp only [Option.isSome_some, true_iff]
    exact ⟨r, stripPrefixCh_eq_some.mp h⟩

theorem startsWithCh_of_strip {p l r : List Char} (h : stripPrefixCh p l = some r) :
    startsWithCh p l = true := by
  unfold startsWithCh
  rw [h]
  rfl

theorem stripPrefixCh_isSome_of_startsWith {p l : List Char}
    (h : startsWithCh p l = true) : ∃ r, stripPrefixCh p l = some r := by
  unfold startsWithCh at h
  rcases hs : stripPrefixCh p l with _ | r
  · rw [hs] at h
    cases h
  · exact ⟨r, rfl⟩

/-! ### Rust `str::lines`

`str::lines` splits at every `'\n'`; a line that was terminated by `"\r\n"`
has that `'\r'` removed; a final segment not terminated by `'\n'` is kept
as is (including a trailing `'\r'`, if any); a trailing empty final segment
is dropped. -/

/-- Raw split of a character list at every newline character. Always returns
at least one (possibly empty) chunk. -/
def splitNL : List Char → List (List Char)
  | [] => [[]]
  | c :: cs =>
    if c = '\n' then [] :: splitNL cs
    else
      match splitNL cs with
      | [] => [[c]]
      | l :: ls => (c :: l) :: ls

/-- Removes one trailing carriage return, as Rust does for lines that were
terminated by a newline. -/
def chopCR (l : List Char) : List Char :=
  if l.getLast? = some '\r' then l.dropLast else l

/-- Models Rust `str::lines` on the byte content of a commit message. -/
def rustLines (s : List Char) : List (List Char) :=
  let parts := splitNL s
  parts.dropLast.map chopCR ++
    match parts.getLast? with
    | some [] => []
    | some l => [l]
    | none => []

example : rustLines "a\r\nb".data = ["a".data, "b".data] := by decide
example : rustLines "a\n".data = ["a".data] := by decide
example : rustLines "".data = [] := by decide
example : rustLines "\n".data = [[]] := by decide
example : rustLines "x\r".data = ["x\r".data] := by decide

/-! ### `TopRepo::rewrite_push_message` -/

def topicMarker : List Char := "Topic: ".data
def crumbMarker : List Char := "^-- ".data

/-- One iteration of the loop in `TopRepo::rewrite_push_message`: the
accumulator carries the filtered message so far and the topic found so far. -/
def rewriteStep (acc : List Char × Option (List Char)) (line : List Char) :
    List Char × Option (List Char) :=
  match stripPrefixCh topicMarker line with
  | some topicName => (acc.1, some topicName)
  | none =>
    if startsWithCh crumbMarker line then acc
    else (acc.1 ++ line ++ ['\n'], acc.2)

/-- Models `TopRepo::rewrite_push_message`: returns the filtered message and
the extracted topic, if any. -/
def rewrite_push_message (message : List Char) : List Char × Option (List Char) :=
  (rustLines message).foldl rewriteStep ([], none)

example :
    rewrite_push_message "subject\n\nTopic: feat\n^-- libs/a 0123\nbody".data
      = ("subject\n\nbody\n".data, some "feat".data) := by decide

/-! ### Characterisation of the rewrite loop -/

/-- Joins lines back into a message, terminating every line with a newline,
as the loop in `rewrite_push_message` does for kept lines. -/
def joinLines (lines : List (List Char)) : List Char :=
  lines.foldr (fun l acc => l ++ '\n' :: acc) []

/-- A line is forwarded to the output iff it neither starts with the
topic marker nor with the bookkeeping-crumb marker. -/
def keptLine (l : List Char) : Bool :=
  !startsWithCh topicMarker l && !startsWithCh crumbMarker l

/-- The names of all topic lines, in order. -/
def topicNames (lines : List (List Char)) : List (List Char) :=
  lines.filterMap (stripPrefixCh topicMarker)

theorem or_some_left {α : Type} (a : α) (o : Option α) :
    (some a).or o = some a := rfl

theorem getLast?_cons_or {α : Type} (a : α) (l : List α) :
    (a :: l).getLast? = l.getLast?.or (some a) := by
  cases l with
  | nil => rfl
  | cons b bs =>
    rw [List.getLast?_cons_cons]
    cases h : (b :: bs).getLast? with
    | none => simp at h
    | some x => rfl

theorem rewrite_foldl (lines : List (List Char)) (acc : List Char)
    (topic : Option (List Char)) :
    lines.foldl rewriteStep (acc, topic) =
      (acc ++ joinLines (lines.filter keptLine),
       ((topicNames lines).getLast?).or topic) := by
  induction lines generalizing acc topic with
  | nil => simp [joinLines, topicNames]
  | cons line rest ih =>
    rw [List.foldl_cons]
    rcases hstrip : stripPrefixCh topicMarker line with _ | name
    · have hsw : startsWithCh topicMarker line = false := by
        unfold startsWithCh
        rw [hstrip]
        rfl
      by_cases hcrumb : startsWithCh crumbMarker line = true
      · have hstep : rewriteStep (acc, topic) line = (acc, topic) := by
          unfold rewriteStep
          rw [hstrip, hcrumb]
          simp
        have hkept : keptLine line = false := by
          unfold keptLine
          rw [hcrumb]
          simp
        rw [hstep, ih]
        simp [topicNames, List.filterMap_cons, hstrip, List.filter_cons, hkept]
      · have hcrumb' : startsWithCh crumbMarker line = false :=
          Bool.eq_false_iff.mpr hcrumb
        have hstep : rewriteStep (acc, topic) line
            = (acc ++ line ++ ['\n'], topic) := by
          unfold rewriteStep
          rw [hstrip, hcrumb']
          simp
        have hkept : keptLine line = true := by
          unfold keptLine
          rw [hsw, hcrumb']
          rfl
        rw [hstep, ih]
        simp [topicNames, List.filterMap_cons, hstrip, List.filter_cons, hkept,
          joinLines]
    · have hstep : rewriteStep (acc, topic) line = (acc, some name) := by
        unfold rewriteStep
        rw [hstrip]
      have hkept : keptLine line = false := by
        unfold keptLine
        rw [startsWithCh_of_strip hstrip]
        rfl
      rw [hstep, ih]
      simp only [topicNames, List.filterMap_cons, hstrip, List.filter_cons, hkept,
        Bool.false_eq_true, if_false, getLast?_cons_or, Option.or_assoc,
        or_some_left]

/-- C3: the split-direction message rewriting preserves every line verbatim in
order, except that each line starting with the marker string of topic lines is
extracted (its name returned, the line not forwarded to the output) and each
line beginning with the crumb marker is dropped. -/
theorem rewrite_push_message_filters_lines (message : List Char) :
    rewrite_push_message message =
      (joinLines ((rustLines message).filter keptLine),
       (topicNames (rustLines message)).getLast?) := by
  unfold rewrite_push_message
  rw [rewrite_foldl]
  simp [Option.or_none]

theorem splitNL_ne_nil (s : List Char) : splitNL s ≠ [] := by
  cases s with
  | nil => simp [splitNL]
  | cons c cs =>
    by_cases hc : c = '\n'
    · simp [splitNL, hc]
    · rcases h : splitNL cs with _ | ⟨l, ls⟩
      · simp [splitNL, hc, h]
      · simp [splitNL, hc, h]

theorem splitNL_append_newline (l s : List Char) (h : '\n' ∉ l) :
    splitNL (l ++ '\n' :: s) = l :: splitNL s := by
  induction l with
  | nil => simp [splitNL]
  | cons c l' ih =>
    have hc : c ≠ '\n' := by
      intro hc
      exact h (hc ▸ List.mem_cons_self c l')
    have hl' : '\n' ∉ l' := fun hm => h (List.mem_cons_of_mem c hm)
    show splitNL (c :: (l' ++ '\n' :: s)) = (c :: l') :: splitNL s
    simp only [splitNL, if_neg hc, ih hl']

theorem splitNL_joinLines (L : List (List Char)) (h : ∀ l ∈ L, '\n' ∉ l) :
    splitNL (joinLines L) = L ++ [[]] := by
  induction L with
  | nil => simp [joinLines, splitNL]
  | cons l rest ih =>
    show splitNL (l ++ '\n' :: joinLines rest) = (l :: rest) ++ [[]]
    rw [splitNL_append_newline l _ (h l (List.mem_cons_self l rest))]
    rw [ih fun x hx => h x (List.mem_cons_of_mem l hx)]
    rfl

theorem rustLines_joinLines (L : List (List Char)) (h : ∀ l ∈ L, '\n' ∉ l) :
    rustLines (joinLines L) = L.map chopCR := by
  simp only [rustLines, splitNL_joinLines L h, List.dropLast_concat,
    List.getLast?_concat]
  simp

theorem mem_splitNL_no_newline (s : List Char) :
    ∀ l ∈ splitNL s, '\n' ∉ l := by
  induction s with
  | nil =>
    intro l hl
    simp [splitNL] at hl
    simp [hl]
  | cons c cs ih =>
    intro l hl
    by_cases hc : c = '\n'
    · simp only [splitNL, if_pos hc] at hl
      rcases List.mem_cons.mp hl with h | h
      · simp [h]
      · exact ih l h
    · rcases hsplit : splitNL cs with _ | ⟨l0, ls⟩
      · exact absurd hsplit (splitNL_ne_nil cs)
      · simp only [splitNL, if_neg hc, hsplit] at hl
        rcases List.mem_cons.mp hl with h | h
        · subst h
          intro hmem
          rcases List.mem_cons.mp hmem with h | h
          · exact hc h.symm
          · exact ih l0 (hsplit ▸ List.mem_cons_self l0 ls) h
        · exact ih l (hsplit ▸ List.mem_cons_of_mem l0 h)

theorem no_newline_chopCR {l : List Char} (h : '\n' ∉ l) : '\n' ∉ chopCR l := by
  unfold chopCR
  by_cases hlast : l.getLast? = some '\r'
  · rw [if_pos hlast]
    intro hm
    exact h ((List.dropLast_sublist l).mem hm)
  · rw [if_neg hlast]
    exact h

theorem mem_rustLines_no_newline {s : List Char} {l : List Char}
    (hl : l ∈ rustLines s) : '\n' ∉ l := by
  simp only [rustLines] at hl
  rcases List.mem_append.mp hl with h | h
  · rcases List.mem_map.mp h with ⟨l0, hl0, rfl⟩
    exact no_newline_chopCR
      (mem_splitNL_no_newline s l0 ((List.dropLast_sublist _).mem hl0))
  · rcases hlast : (splitNL s).getLast? with _ | l'
    · rw [hlast] at h
      simp at h
    · have hl'mem : l' ∈ splitNL s := by
        rcases List.mem_getLast?_eq_getLast (hlast ▸ rfl : l' ∈ (splitNL s).getLast?)
          with ⟨hne, heq⟩
        exact heq ▸ List.getLast_mem hne
      rw [hlast] at h
      rcases l' with _ | ⟨c, l''⟩
      · simp at h
      · simp only [List.mem_singleton] at h
        exact h ▸ mem_splitNL_no_newline s _ hl'mem

theorem startsWith_of_chopCR {p l : List Char}
    (h : startsWithCh p (chopCR l) = true) : startsWithCh p l = true := by
  unfold chopCR at h
  by_cases hlast : l.getLast? = some '\r'
  · rw [if_pos hlast] at h
    rcases startsWithCh_true.mp h with ⟨r, hr⟩
    rcases List.eq_nil_or_concat l with rfl | ⟨l0, a, rfl⟩
    · simp at hr
      exact startsWithCh_true.mpr ⟨[], by simp [hr.1]⟩
    · rw [List.concat_eq_append, List.dropLast_concat] at hr
      exact startsWithCh_true.mpr
        ⟨r ++ [a], by rw [List.concat_eq_append, hr]; simp⟩
  · rw [if_neg hlast] at h
    exact h

theorem joinLines_eq_nil {L : List (List Char)} : joinLines L = [] ↔ L = [] := by
  cases L with
  | nil => simp [joinLines]
  | cons l rest =>
    simp only [joinLines, List.foldr_cons]
    constructor
    · intro h
      exact absurd h (by simp)
    · intro h
      cases h

theorem getLast?_joinLines {L : List (List Char)} (h : L ≠ []) :
    (joinLines L).getLast? = some '\n' := by
  induction L with
  | nil => exact absurd rfl h
  | cons l rest ih =>
    show (l ++ '\n' :: joinLines rest).getLast? = some '\n'
    rw [List.getLast?_append]
    cases rest with
    | nil =>
      simp [joinLines]
    | cons r rs =>
      have hne : joinLines (r :: rs) ≠ [] := by
        rw [Ne, joinLines_eq_nil]
        simp
      rw [getLast?_cons_or, ih (by simp)]
      rfl

/-- C10: with several topic lines, the rewriting returns the name of the last
one; no topic line appears among the lines of the rewritten message; and a
non-empty rewritten message always ends in a newline. -/
theorem rewrite_push_message_last_topic (message : List Char)
    (h : 2 ≤ (topicNames (rustLines message)).length) :
    (rewrite_push_message message).2 = (topicNames (rustLines message)).getLast? ∧
    ((topicNames (rustLines message)).getLast?).isSome = true ∧
    (∀ l ∈ rustLines (rewrite_push_message message).1,
      startsWithCh topicMarker l = false) ∧
    ((rewrite_push_message message).1 ≠ [] →
      (rewrite_push_message message).1.getLast? = some '\n') := by
  have hspec : rewrite_push_message message =
      (joinLines ((rustLines message).filter keptLine),
       (topicNames (rustLines message)).getLast?) := by
    unfold rewrite_push_message
    rw [rewrite_foldl]
    simp [Option.or_none]
  refine ⟨by rw [hspec], ?_, ?_, ?_⟩
  · rw [List.getLast?_isSome]
    intro hnil
    rw [hnil] at h
    simp at h
  · intro l hl
    rw [hspec] at hl
    have hnonl : ∀ x ∈ (rustLines message).filter keptLine, '\n' ∉ x := by
      intro x hx
      exact mem_rustLines_no_newline (List.mem_filter.mp hx).1
    rw [rustLines_joinLines _ hnonl] at hl
    rcases List.mem_map.mp hl with ⟨l0, hl0, rfl⟩
    have hkept : keptLine l0 = true := (List.mem_filter.mp hl0).2
    have htopic0 : startsWithCh topicMarker l0 = false := by
      unfold keptLine at hkept
      by_cases hsw : startsWithCh topicMarker l0 = true
      · rw [hsw] at hkept
        simp at hkept
      · exact Bool.eq_false_iff.mpr hsw
    by_contra hcontra
    have := startsWith_of_chopCR (Bool.not_eq_false _ |>.mp hcontra)
    rw [htopic0] at this
    cases this
  · intro hne
    rw [hspec] at hne ⊢
    apply getLast?_joinLines
    intro hnil
    rw [hnil] at hne
    simp [joinLines] at hne

/-- Witness for C10 at a concrete two-topic message. -/
theorem rewrite_push_message_last_topic_witness :
    2 ≤ (topicNames (rustLines "Topic: a\nkeep\nTopic: b".data)).length ∧
    (rewrite_push_message "Topic: a\nkeep\nTopic: b".data).2
      = (topicNames (rustLines "Topic: a\nkeep\nTopic: b".data)).getLast? :=
  ⟨by decide, (rewrite_push_message_last_topic _ (by decide)).1⟩

/-! ### The redundant-push collapse of `TopRepo::push`

The queue entries are the `(push_url, topic, commit_id, parents_commit_ids)`
tuples collected in `to_push_metadata`. The collapse reverses the queue,
runs `Vec::retain` with the `redundant_pushes` hash map, and reverses back.
-/

abbrev Url := String
abbrev Topic := String

structure PushEntry where
  push_url : Url
  topic : Option Topic
  commit_id : CommitId
  parents : List CommitId
deriving DecidableEq

abbrev PushKey := Url × CommitId

/-- The `redundant_pushes : HashMap<(Url, CommitId), Option<String>>` map. -/
abbrev PushMap := PushKey → Option (Option Topic)

def emptyPushMap : PushMap := fun _ => none

def insertPush (k : PushKey) (t : Option Topic) (m : PushMap) : PushMap :=
  fun k2 => if k2 = k then some t else m k2

def removePush (k : PushKey) (m : PushMap) : PushMap :=
  fun k2 => if k2 = k then none else m k2

/-- The map update performed by one `retain` callback invocation: the entry's
own key is consumed by `remove`, then the entry's topic is registered for
every parent commit (the code replaces existing entries). -/
def stepMap (e : PushEntry) (m : PushMap) : PushMap :=
  e.parents.foldl (fun acc p => insertPush (e.push_url, p) e.topic acc)
    (removePush (e.push_url, e.commit_id) m)

/-- `Vec::retain` over the reversed queue: an entry is kept iff the value that
`remove` returned for its `(push_url, commit_id)` key differs from its own
topic; the map is updated for every entry, kept or dropped. -/
def retainLoop : List PushEntry → PushMap → List PushEntry
  | [], _ => []
  | e :: rest, m =>
    if m (e.push_url, e.commit_id) = some e.topic then retainLoop rest (stepMap e m)
    else e :: retainLoop rest (stepMap e m)

/-- Models the collapse of `to_push_metadata` in `TopRepo::push`
(reverse, retain, reverse back). -/
def collapse_pushes (queue : List PushEntry) : List PushEntry :=
  (retainLoop queue.reverse emptyPushMap).reverse

/-- A later push `f` covers entry `e` when it goes to the same URL and lists
the commit of `e` among its parents. -/
def coveringPush (e : PushEntry) (f : PushEntry) : Bool :=
  decide (f.push_url = e.push_url) && decide (e.commit_id ∈ f.parents)

/-- Declarative characterisation of the code: an entry is kept unless the
chronologically first later push covering it has the same topic. Later
pushes count whether or not they are themselves kept. -/
def specKeep (e : PushEntry) (laters : List PushEntry) : Bool :=
  match laters.find? (coveringPush e) with
  | none => true
  | some f => decide (f.topic ≠ e.topic)

def specCollapse : List PushEntry → List PushEntry
  | [] => []
  | e :: rest =>
    if specKeep e rest then e :: specCollapse rest else specCollapse rest

/-- Follows the claim's words, not the code: keep exactly the entries that are
not superseded by a later KEPT push with the same topic onto one of that
later push's parents. -/
def laterKeptCollapse : List PushEntry → List PushEntry
  | [] => []
  | e :: rest =>
    let kept := laterKeptCollapse rest
    if kept.any (fun f => decide (f.push_url = e.push_url) &&
        decide (f.topic = e.topic) && decide (e.commit_id ∈ f.parents))
    then kept
    else e :: kept

/-- Three chained pushes of the same topic onto the same URL, the scenario of
spec test 5 (`A -> B -> C`, all in one sub-repo, one topic). -/
def cexA : PushEntry := ⟨"u", some "t", 10, [0]⟩
def cexB : PushEntry := ⟨"u", some "t", 11, [10]⟩
def cexC : PushEntry := ⟨"u", some "t", 12, [11]⟩
def cexQueue : List PushEntry := [cexA, cexB, cexC]

/-- C2 counterexample: on the `A -> B -> C` chain the code keeps only the
newest push: the push for `A` is dropped because the (itself dropped) push
for `B` registered `A`'s commit, even though no later KEPT push lists `A`'s
commit among its parents. The claim's "later-kept" rule would keep `A`. -/
theorem collapse_pushes_counterexample :
    collapse_pushes cexQueue = [cexC] ∧
    laterKeptCollapse cexQueue = [cexA, cexC] ∧
    cexA ∉ collapse_pushes cexQueue := by decide

def foldStepMap (A : List PushEntry) (m : PushMap) : PushMap :=
  A.foldl (fun acc e => stepMap e acc) m

theorem retainLoop_nil (m : PushMap) : retainLoop [] m = [] := rfl

theorem retainLoop_cons (e : PushEntry) (rest : List PushEntry) (m : PushMap) :
    retainLoop (e :: rest) m =
      if m (e.push_url, e.commit_id) = some e.topic
      then retainLoop rest (stepMap e m)
      else e :: retainLoop rest (stepMap e m) := rfl

theorem foldStepMap_cons (e : PushEntry) (A : List PushEntry) (m : PushMap) :
    foldStepMap (e :: A) m = foldStepMap A (stepMap e m) := rfl

theorem retainLoop_append (A B : List PushEntry) (m : PushMap) :
    retainLoop (A ++ B) m = retainLoop A m ++ retainLoop B (foldStepMap A m) := by
  induction A generalizing m with
  | nil => rfl
  | cons e A' ih =>
    rw [List.cons_append, retainLoop_cons, retainLoop_cons, foldStepMap_cons]
    by_cases h : m (e.push_url, e.commit_id) = some e.topic
    · rw [if_pos h, if_pos h, ih]
    · rw [if_neg h, if_neg h, ih, List.cons_append]

theorem foldl_insertPush_apply (url : Url) (t : Option Topic)
    (ps : List CommitId) (m0 : PushMap) (k : PushKey) :
    (ps.foldl (fun acc p => insertPush (url, p) t acc) m0) k =
      if k.1 = url ∧ k.2 ∈ ps then some t else m0 k := by
  induction ps generalizing m0 with
  | nil => simp
  | cons p ps' ih =>
    rw [List.foldl_cons, ih]
    by_cases h1 : k.1 = url ∧ k.2 ∈ ps'
    · rw [if_pos h1, if_pos ⟨h1.1, List.mem_cons_of_mem p h1.2⟩]
    · rw [if_neg h1]
      by_cases h2 : k = (url, p)
      · have : k.1 = url ∧ k.2 ∈ p :: ps' := by
          rw [h2]
          exact ⟨rfl, List.mem_cons_self p ps'⟩
        rw [if_pos this]
        unfold insertPush
        rw [if_pos h2]
      · have : ¬(k.1 = url ∧ k.2 ∈ p :: ps') := by
          rintro ⟨hu, hm⟩
          rcases List.mem_cons.mp hm with h | h
          · exact h2 (Prod.ext hu h)
          · exact h1 ⟨hu, h⟩
        rw [if_neg this]
        unfold insertPush
        rw [if_neg h2]

theorem stepMap_apply (e : PushEntry) (m : PushMap) (k : PushKey) :
    stepMap e m k =
      if k.1 = e.push_url ∧ k.2 ∈ e.parents then some e.topic
      else if k = (e.push_url, e.commit_id) then none
      else m k := by
  unfold stepMap
  rw [foldl_insertPush_apply]
  by_cases h1 : k.1 = e.push_url ∧ k.2 ∈ e.parents
  · rw [if_pos h1, if_pos h1]
  · rw [if_neg h1, if_neg h1]
    unfold removePush
    by_cases h2 : k = (e.push_url, e.commit_id)
    · simp [h2]
    · simp [h2]

theorem foldStepMap_reverse_apply (rest : List PushEntry) (m : PushMap)
    (e : PushEntry)
    (hno : ∀ f ∈ rest, (f.push_url, f.commit_id) ≠ (e.push_url, e.commit_id)) :
    foldStepMap rest.reverse m (e.push_url, e.commit_id) =
      match rest.find? (coveringPush e) with
      | some f => some f.topic
      | none => m (e.push_url, e.commit_id) := by
  induction rest generalizing m with
  | nil => rfl
  | cons f rest' ih =>
    have hstep : foldStepMap ((f :: rest').reverse) m
        = stepMap f (foldStepMap rest'.reverse m) := by
      unfold foldStepMap
      rw [List.reverse_cons, List.foldl_append]
      rfl
    rw [hstep, stepMap_apply]
    by_cases hcov : coveringPush e f = true
    · have hcond : (e.push_url, e.commit_id).1 = f.push_url ∧
          (e.push_url, e.commit_id).2 ∈ f.parents := by
        unfold coveringPush at hcov
        rcases Bool.and_eq_true_iff.mp hcov with ⟨h1, h2⟩
        exact ⟨(of_decide_eq_true h1).symm, of_decide_eq_true h2⟩
      rw [if_pos hcond, List.find?_cons_of_pos _ hcov]
    · have hcond : ¬((e.push_url, e.commit_id).1 = f.push_url ∧
          (e.push_url, e.commit_id).2 ∈ f.parents) := by
        rintro ⟨h1, h2⟩
        apply hcov
        unfold coveringPush
        rw [decide_eq_true h1.symm, decide_eq_true h2]
        rfl
      have hne : ¬((e.push_url, e.commit_id) : PushKey)
          = (f.push_url, f.commit_id) := by
        intro hk
        exact hno f (List.mem_cons_self f rest') hk.symm
      rw [if_neg hcond, if_neg hne,
        List.find?_cons_of_neg _ (Bool.eq_false_iff.mpr hcov ▸ by simp [hcov])]
      exact ih m fun g hg => hno g (List.mem_cons_of_mem f hg)

/-- C2 (amended): for a queue with pairwise distinct `(url, commit)` keys, the
collapse keeps exactly the entries for which no later push covers them, or the
chronologically first covering later push has a different topic — later pushes
count whether or not they are themselves kept. In particular the `A -> B -> C`
single-submodule, single-topic chain collapses to just the push derived
from `C`. -/
theorem collapse_pushes_spec :
    (∀ q : List PushEntry,
      (q.map fun e => (e.push_url, e.commit_id)).Nodup →
      collapse_pushes q = specCollapse q) ∧
    collapse_pushes cexQueue = [cexC] := by
  constructor
  · intro q hnodup
    induction q with
    | nil => rfl
    | cons e rest ih =>
      rw [List.map_cons, List.nodup_cons] at hnodup
      have hkeys : ∀ f ∈ rest, (f.push_url, f.commit_id)
          ≠ (e.push_url, e.commit_id) := by
        intro f hf hk
        exact hnodup.1 (hk ▸ List.mem_map_of_mem _ hf)
      have hrest : collapse_pushes rest = specCollapse rest := ih hnodup.2
      have hsplit : collapse_pushes (e :: rest)
          = (retainLoop [e] (foldStepMap rest.reverse emptyPushMap)).reverse
            ++ collapse_pushes rest := by
        unfold collapse_pushes
        rw [List.reverse_cons, retainLoop_append, List.reverse_append]
      have hspecc : specCollapse (e :: rest)
          = if specKeep e rest then e :: specCollapse rest
            else specCollapse rest := rfl
      rcases hfind : rest.find? (coveringPush e) with _ | f
      · have hM : foldStepMap rest.reverse emptyPushMap
            (e.push_url, e.commit_id) = none := by
          rw [foldStepMap_reverse_apply rest emptyPushMap e hkeys, hfind]
          rfl
        have hret : retainLoop [e] (foldStepMap rest.reverse emptyPushMap)
            = [e] := by
          rw [retainLoop_cons, hM]
          simp [retainLoop_nil]
        have hspec : specKeep e rest = true := by
          unfold specKeep
          rw [hfind]
        rw [hsplit, hret, hrest, hspecc, hspec]
        simp
      · have hM : foldStepMap rest.reverse emptyPushMap
            (e.push_url, e.commit_id) = some f.topic := by
          rw [foldStepMap_reverse_apply rest emptyPushMap e hkeys, hfind]
        by_cases htop : f.topic = e.topic
        · have hret : retainLoop [e] (foldStepMap rest.reverse emptyPushMap)
              = [] := by
            rw [retainLoop_cons, hM, htop]
            simp [retainLoop_nil]
          have hspec : specKeep e rest = false := by
            unfold specKeep
            rw [hfind]
            simp [htop]
          rw [hsplit, hret, hrest, hspecc, hspec]
          simp
        · have hret : retainLoop [e] (foldStepMap rest.reverse emptyPushMap)
              = [e] := by
            rw [retainLoop_cons, hM,
              if_neg (fun hc => htop (Option.some.inj hc))]
            simp [retainLoop_nil]
          have hspec : specKeep e rest = true := by
            unfold specKeep
            rw [hfind]
            simp [htop]
          rw [hsplit, hret, hrest, hspecc, hspec]
          simp
  · decide

/-- Witness for the amended C2 theorem at the concrete chain queue. -/
theorem collapse_pushes_spec_witness :
    (cexQueue.map fun e => (e.push_url, e.commit_id)).Nodup ∧
    collapse_pushes cexQueue = specCollapse cexQueue :=
  ⟨by decide, collapse_pushes_spec.1 cexQueue (by decide)⟩

/-! ### `ThinCommit`

A `ThinCommit` owns reference-counted parents, so semantically it is a
finite tree value with sharing; the inductive below captures exactly that.
The `depth` and `submodule_paths` fields are stored (as in the Rust struct)
and computed by the one-shot builder `ThinCommit.new_rc`. Hash sets of paths
are modelled as duplicate-free lists. -/

inductive ThinSubmodule where
  | AddedOrModified (repo_name : Option String) (commit_id : CommitId)
  | Removed
deriving DecidableEq

inductive ThinCommit : Type where
  | mk (commit_id : CommitId) (tree_id : Nat) (depth : Nat)
      (parents : List ThinCommit) (dot_gitmodules : Option Nat)
      (submodule_bumps : List (GitPath × ThinSubmodule))
      (submodule_paths : List GitPath) : ThinCommit

def ThinCommit.commit_id : ThinCommit → CommitId
  | .mk cid _ _ _ _ _ _ => cid

def ThinCommit.tree_id : ThinCommit → Nat
  | .mk _ tid _ _ _ _ _ => tid

def ThinCommit.depth : ThinCommit → Nat
  | .mk _ _ d _ _ _ _ => d

def ThinCommit.parents : ThinCommit → List ThinCommit
  | .mk _ _ _ ps _ _ _ => ps

def ThinCommit.dot_gitmodules : ThinCommit → Option Nat
  | .mk _ _ _ _ gm _ _ => gm

def ThinCommit.submodule_bumps : ThinCommit → List (GitPath × ThinSubmodule)
  | .mk _ _ _ _ _ bs _ => bs

def ThinCommit.submodule_paths : ThinCommit → List GitPath
  | .mk _ _ _ _ _ _ paths => paths

@[simp] theorem ThinCommit.commit_id_mk (cid tid d : Nat) (ps : List ThinCommit)
    (gm : Option Nat) (bs : List (GitPath × ThinSubmodule)) (paths : List GitPath) :
    (ThinCommit.mk cid tid d ps gm bs paths).commit_id = cid := rfl

@[simp] theorem ThinCommit.depth_mk (cid tid d : Nat) (ps : List ThinCommit)
    (gm : Option Nat) (bs : List (GitPath × ThinSubmodule)) (paths : List GitPath) :
    (ThinCommit.mk cid tid d ps gm bs paths).depth = d := rfl

@[simp] theorem ThinCommit.parents_mk (cid tid d : Nat) (ps : List ThinCommit)
    (gm : Option Nat) (bs : List (GitPath × ThinSubmodule)) (paths : List GitPath) :
    (ThinCommit.mk cid tid d ps gm bs paths).parents = ps := rfl

@[simp] theorem ThinCommit.submodule_bumps_mk (cid tid d : Nat)
    (ps : List ThinCommit) (gm : Option Nat)
    (bs : List (GitPath × ThinSubmodule)) (paths : List GitPath) :
    (ThinCommit.mk cid tid d ps gm bs paths).submodule_bumps = bs := rfl

@[simp] theorem ThinCommit.submodule_paths_mk (cid tid d : Nat)
    (ps : List ThinCommit) (gm : Option Nat)
    (bs : List (GitPath × ThinSubmodule)) (paths : List GitPath) :
    (ThinCommit.mk cid tid d ps gm bs paths).submodule_paths = paths := rfl

/-- `HashSet::insert` on a duplicate-free list. -/
def insertPath (q : GitPath) (l : List GitPath) : List GitPath :=
  if q ∈ l then l else q :: l

/-- `HashSet::remove` on a duplicate-free list. -/
def erasePath (q : GitPath) : List GitPath → List GitPath
  | [] => []
  | x :: xs => if x = q then xs else x :: erasePath q xs

/-- The loop over `submodule_bumps` in `ThinCommit::new_rc`: apply each bump
to the inherited path set. -/
def applyThinBumps (bumps : List (GitPath × ThinSubmodule))
    (init : List GitPath) : List GitPath :=
  bumps.foldl (fun paths pb =>
    match pb.2 with
    | ThinSubmodule.AddedOrModified _ _ => insertPath pb.1 paths
    | ThinSubmodule.Removed => erasePath pb.1 paths) init

/-- Models `ThinCommit::new_rc`: computes `depth` from the parents and
`submodule_paths` by applying the bumps to the first parent's set. -/
def ThinCommit.new_rc (commit_id tree_id : Nat) (parents : List ThinCommit)
    (dot_gitmodules : Option Nat)
    (submodule_bumps : List (GitPath × ThinSubmodule)) : ThinCommit :=
  ThinCommit.mk commit_id tree_id
    (((parents.map fun p => p.depth + 1).max?).getD 0)
    parents dot_gitmodules submodule_bumps
    (applyThinBumps submodule_bumps
      (match parents.head? with
       | some first => first.submodule_paths
       | none => []))

theorem le_foldr_max (l : List Nat) : ∀ x ∈ l, x ≤ l.foldr max 0 := by
  induction l with
  | nil =>
    intro x hx
    cases hx
  | cons a l ih =>
    intro x hx
    rcases List.mem_cons.mp hx with rfl | h
    · exact le_max_left _ _
    · exact le_trans (ih x h) (le_max_right _ _)

theorem max?_map_succ_getD (l : List Nat) :
    ((l.map fun n => n + 1).max?).getD 0
      = if l = [] then 0 else 1 + l.foldr max 0 := by
  induction l with
  | nil => rfl
  | cons a l ih =>
    rw [List.map_cons, List.max?_cons, if_neg (by simp)]
    rcases hl : l with _ | ⟨b, l'⟩
    · simp [Nat.max_zero, Nat.add_comm]
    · rw [← hl]
      have hne : l ≠ [] := by
        rw [hl]
        simp
      rcases hm : (l.map fun n => n + 1).max? with _ | m
      · rw [List.max?_eq_none_iff] at hm
        simp at hm
        exact absurd hm hne
      · rw [hm] at ih
        rw [if_neg hne] at ih
        simp only [Option.elim_some, Option.getD_some] at ih ⊢
        rw [ih, Nat.add_comm 1 (l.foldr max 0), Nat.succ_max_succ,
          List.foldr_cons, Nat.add_comm]

/-- C5: the depth computed by `ThinCommit::new_rc` is `1 + max(parents.depth)`
for a commit with parents and `0` for a root, hence strictly greater than
every parent's depth. -/
theorem thin_new_rc_depth (cid tid : Nat) (parents : List ThinCommit)
    (dgm : Option Nat) (bumps : List (GitPath × ThinSubmodule)) :
    (parents = [] → (ThinCommit.new_rc cid tid parents dgm bumps).depth = 0) ∧
    (parents ≠ [] → (ThinCommit.new_rc cid tid parents dgm bumps).depth
        = 1 + (parents.map ThinCommit.depth).foldr max 0) ∧
    (∀ p ∈ parents, p.depth < (ThinCommit.new_rc cid tid parents dgm bumps).depth) := by
  have hdepth : (ThinCommit.new_rc cid tid parents dgm bumps).depth
      = ((parents.map fun p => p.depth + 1).max?).getD 0 := rfl
  have hmap : (parents.map fun p => p.depth + 1)
      = (parents.map ThinCommit.depth).map fun n => n + 1 := by
    rw [List.map_map]
    rfl
  rw [hdepth, hmap, max?_map_succ_getD]
  refine ⟨?_, ?_, ?_⟩
  · intro h
    rw [if_pos (by rw [h]; rfl)]
  · intro h
    rw [if_neg (by simpa using h)]
  · intro p hp
    have hne : parents.map ThinCommit.depth ≠ [] := by
      simp only [ne_eq, List.map_eq_nil_iff]
      intro h
      rw [h] at hp
      cases hp
    rw [if_neg hne]
    have : p.depth ≤ (parents.map ThinCommit.depth).foldr max 0 :=
      le_foldr_max _ _ (List.mem_map_of_mem _ hp)
    omega

/-- Witness for C5 with one parent of depth 0. -/
theorem thin_new_rc_depth_witness :
    ([ThinCommit.new_rc 0 0 [] none []] ≠ ([] : List ThinCommit)) ∧
    (ThinCommit.new_rc 1 1 [ThinCommit.new_rc 0 0 [] none []] none []).depth
      = 1 + ([ThinCommit.new_rc 0 0 [] none []].map ThinCommit.depth).foldr max 0 :=
  ⟨by simp, (thin_new_rc_depth 1 1 [ThinCommit.new_rc 0 0 [] none []] none []).2.1
    (by simp)⟩

/-! ### First-parent walks over `ThinCommit` -/

mutual

def ThinCommit.size : ThinCommit → Nat
  | .mk _ _ _ ps _ _ _ => 1 + ThinCommit.sizeList ps

def ThinCommit.sizeList : List ThinCommit → Nat
  | [] => 0
  | c :: cs => ThinCommit.size c + ThinCommit.sizeList cs

end

theorem ThinCommit.size_pos (c : ThinCommit) : 0 < c.size := by
  cases c with
  | mk cid tid d ps gm bs paths =>
    show 0 < 1 + ThinCommit.sizeList ps
    omega

theorem ThinCommit.size_le_sizeList {c : ThinCommit} {cs : List ThinCommit}
    (h : c ∈ cs) : c.size ≤ ThinCommit.sizeList cs := by
  induction cs with
  | nil => cases h
  | cons x xs ih =>
    show c.size ≤ x.size + ThinCommit.sizeList xs
    rcases List.mem_cons.mp h with rfl | h
    · omega
    · have := ih h
      omega

theorem ThinCommit.size_lt_of_mem_parents {p c : ThinCommit}
    (h : p ∈ c.parents) : p.size < c.size := by
  cases c with
  | mk cid tid d ps gm bs paths =>
    have hle : p.size ≤ ThinCommit.sizeList ps :=
      ThinCommit.size_le_sizeList (by simpa using h)
    show p.size < 1 + ThinCommit.sizeList ps
    omega

/-- Lookup in the `BTreeMap<GitPath, ThinSubmodule>` of bumps. -/
def lookupBump : List (GitPath × ThinSubmodule) → GitPath → Option ThinSubmodule
  | [], _ => none
  | (q, b) :: rest, p => if q = p then some b else lookupBump rest p

/-- Models `ThinCommit::get_submodule`: walks the first-parent chain to the
first bump recorded for the path. -/
def ThinCommit.get_submodule (c : ThinCommit) (path : GitPath) :
    Option ThinSubmodule :=
  match lookupBump c.submodule_bumps path with
  | some submod => some submod
  | none =>
    match hp : c.parents with
    | [] => none
    | fp :: _ => fp.get_submodule path
termination_by c.size
decreasing_by
  exact ThinCommit.size_lt_of_mem_parents (hp ▸ List.mem_cons_self fp _)

/-- The first-parent chain of a commit, newest first, the commit included. -/
def firstParentChain (c : ThinCommit) : List ThinCommit :=
  c ::
    match hp : c.parents with
    | [] => []
    | fp :: _ => firstParentChain fp
termination_by c.size
decreasing_by
  exact ThinCommit.size_lt_of_mem_parents (hp ▸ List.mem_cons_self fp _)

/-- The hereditary image of `ThinCommit::new_rc`: every commit and all of its
ancestors were constructed by the builder, with the `BTreeMap` key uniqueness
of `submodule_bumps`. -/
inductive Built : ThinCommit → Prop where
  | intro : ∀ (cid tid : Nat) (parents : List ThinCommit) (dgm : Option Nat)
      (bumps : List (GitPath × ThinSubmodule)),
      (∀ p ∈ parents, Built p) →
      (bumps.map Prod.fst).Nodup →
      Built (ThinCommit.new_rc cid tid parents dgm bumps)

theorem mem_insertPath {p q : GitPath} {l : List GitPath} :
    p ∈ insertPath q l ↔ p = q ∨ p ∈ l := by
  unfold insertPath
  by_cases h : q ∈ l
  · rw [if_pos h]
    constructor
    · intro hp
      exact Or.inr hp
    · rintro (rfl | hp)
      · exact h
      · exact hp
  · rw [if_neg h]
    exact List.mem_cons

theorem insertPath_nodup {q : GitPath} {l : List GitPath} (h : l.Nodup) :
    (insertPath q l).Nodup := by
  unfold insertPath
  by_cases hq : q ∈ l
  · rw [if_pos hq]
    exact h
  · rw [if_neg hq]
    exact List.nodup_cons.mpr ⟨hq, h⟩

theorem mem_of_mem_erasePath {p q : GitPath} {l : List GitPath}
    (h : p ∈ erasePath q l) : p ∈ l := by
  induction l with
  | nil => cases h
  | cons x xs ih =>
    unfold erasePath at h
    by_cases hx : x = q
    · rw [if_pos hx] at h
      exact List.mem_cons_of_mem x h
    · rw [if_neg hx] at h
      rcases List.mem_cons.mp h with rfl | h
      · exact List.mem_cons_self _ _
      · exact List.mem_cons_of_mem x (ih h)

theorem mem_erasePath_of_ne {p q : GitPath} {l : List GitPath} (hpq : p ≠ q) :
    p ∈ erasePath q l ↔ p ∈ l := by
  induction l with
  | nil => exact Iff.rfl
  | cons x xs ih =>
    unfold erasePath
    by_cases hx : x = q
    · rw [if_pos hx]
      constructor
      · exact List.mem_cons_of_mem x
      · intro h
        rcases List.mem_cons.mp h with rfl | h
        · exact absurd hx hpq
        · exact h
    · rw [if_neg hx]
      rw [List.mem_cons, List.mem_cons, ih]

theorem not_mem_erasePath_self {q : GitPath} {l : List GitPath} (hl : l.Nodup) :
    q ∉ erasePath q l := by
  induction l with
  | nil => intro h; cases h
  | cons x xs ih =>
    rw [List.nodup_cons] at hl
    unfold erasePath
    by_cases hx : x = q
    · rw [if_pos hx]
      exact hx ▸ hl.1
    · rw [if_neg hx]
      intro h
      rcases List.mem_cons.mp h with h | h
      · exact hx h.symm
      · exact ih hl.2 h

theorem erasePath_nodup {q : GitPath} {l : List GitPath} (hl : l.Nodup) :
    (erasePath q l).Nodup := by
  induction l with
  | nil => exact hl
  | cons x xs ih =>
    rw [List.nodup_cons] at hl
    unfold erasePath
    by_cases hx : x = q
    · rw [if_pos hx]
      exact hl.2
    · rw [if_neg hx]
      refine List.nodup_cons.mpr ⟨fun h => hl.1 (mem_of_mem_erasePath h), ih hl.2⟩

theorem applyThinBumps_nil (init : List GitPath) :
    applyThinBumps [] init = init := rfl

theorem applyThinBumps_cons_add (q : GitPath) (rn : Option String)
    (sc : CommitId) (rest : List (GitPath × ThinSubmodule))
    (init : List GitPath) :
    applyThinBumps ((q, ThinSubmodule.AddedOrModified rn sc) :: rest) init
      = applyThinBumps rest (insertPath q init) := rfl

theorem applyThinBumps_cons_removed (q : GitPath)
    (rest : List (GitPath × ThinSubmodule)) (init : List GitPath) :
    applyThinBumps ((q, ThinSubmodule.Removed) :: rest) init
      = applyThinBumps rest (erasePath q init) := rfl

theorem applyThinBumps_nodup (bumps : List (GitPath × ThinSubmodule))
    (init : List GitPath) (h : init.Nodup) :
    (applyThinBumps bumps init).Nodup := by
  induction bumps generalizing init with
  | nil => exact h
  | cons qb rest ih =>
    rcases qb with ⟨q, b⟩
    cases b with
    | AddedOrModified rn sc =>
      rw [applyThinBumps_cons_add]
      exact ih _ (insertPath_nodup h)
    | Removed =>
      rw [applyThinBumps_cons_removed]
      exact ih _ (erasePath_nodup h)

theorem lookupBump_nil (p : GitPath) : lookupBump [] p = none := rfl

theorem lookupBump_cons (q : GitPath) (b : ThinSubmodule)
    (rest : List (GitPath × ThinSubmodule)) (p : GitPath) :
    lookupBump ((q, b) :: rest) p
      = if q = p then some b else lookupBump rest p := rfl

theorem lookupBump_cons_self {q : GitPath} {b : ThinSubmodule}
    {rest : List (GitPath × ThinSubmodule)} {p : GitPath} (h : q = p) :
    lookupBump ((q, b) :: rest) p = some b := by
  rw [lookupBump_cons, if_pos h]

theorem lookupBump_cons_ne {q : GitPath} {b : ThinSubmodule}
    {rest : List (GitPath × ThinSubmodule)} {p : GitPath} (h : q ≠ p) :
    lookupBump ((q, b) :: rest) p = lookupBump rest p := by
  rw [lookupBump_cons, if_neg h]

theorem mem_applyThinBumps_of_no_key (bumps : List (GitPath × ThinSubmodule))
    (init : List GitPath) (p : GitPath) (h : p ∉ bumps.map Prod.fst) :
    (p ∈ applyThinBumps bumps init ↔ p ∈ init) := by
  induction bumps generalizing init with
  | nil => exact Iff.rfl
  | cons qb rest ih =>
    rcases qb with ⟨q, b⟩
    have hqp : p ≠ q := by
      intro he
      apply h
      rw [List.map_cons, he]
      exact List.mem_cons_self _ _
    have hrest : p ∉ rest.map Prod.fst := by
      intro hm
      apply h
      simp only [List.map_cons, List.mem_cons]
      right
      exact hm
    cases b with
    | AddedOrModified rn sc =>
      rw [applyThinBumps_cons_add, ih _ hrest, mem_insertPath]
      simp [hqp]
    | Removed =>
      rw [applyThinBumps_cons_removed, ih _ hrest, mem_erasePath_of_ne hqp]

theorem mem_applyThinBumps (bumps : List (GitPath × ThinSubmodule))
    (init : List GitPath) (hkeys : (bumps.map Prod.fst).Nodup)
    (hinit : init.Nodup) (p : GitPath) :
    p ∈ applyThinBumps bumps init ↔
      match lookupBump bumps p with
      | some (ThinSubmodule.AddedOrModified _ _) => True
      | some ThinSubmodule.Removed => False
      | none => p ∈ init := by
  induction bumps generalizing init with
  | nil =>
    rw [lookupBump_nil]
    exact Iff.rfl
  | cons qb rest ih =>
    rcases qb with ⟨q, b⟩
    rw [List.map_cons, List.nodup_cons] at hkeys
    by_cases hq : q = p
    · rw [lookupBump_cons_self hq]
      have hrestkeys : p ∉ rest.map Prod.fst := hq ▸ hkeys.1
      cases b with
      | AddedOrModified rn sc =>
        rw [applyThinBumps_cons_add, mem_applyThinBumps_of_no_key rest _ p hrestkeys]
        show p ∈ insertPath q init ↔ True
        rw [mem_insertPath]
        simp [hq]
      | Removed =>
        rw [applyThinBumps_cons_removed,
          mem_applyThinBumps_of_no_key rest _ p hrestkeys]
        show p ∈ erasePath q init ↔ False
        simp only [iff_false]
        exact hq ▸ not_mem_erasePath_self hinit
    · rw [lookupBump_cons_ne hq]
      cases b with
      | AddedOrModified rn sc =>
        rw [applyThinBumps_cons_add, ih _ hkeys.2 (insertPath_nodup hinit)]
        rcases hl : lookupBump rest p with _ | s
        · show p ∈ insertPath q init ↔ p ∈ init
          rw [mem_insertPath]
          exact or_iff_right fun he => hq he.symm
        · cases s with
          | AddedOrModified rn2 sc2 => exact Iff.rfl
          | Removed => exact Iff.rfl
      | Removed =>
        rw [applyThinBumps_cons_removed, ih _ hkeys.2 (erasePath_nodup hinit)]
        rcases hl : lookupBump rest p with _ | s
        · show p ∈ erasePath q init ↔ p ∈ init
          exact mem_erasePath_of_ne fun he => hq he.symm
        · cases s with
          | AddedOrModified rn2 sc2 => exact Iff.rfl
          | Removed => exact Iff.rfl

@[simp] theorem ThinCommit.parents_new_rc (cid tid : Nat)
    (ps : List ThinCommit) (gm : Option Nat)
    (bs : List (GitPath × ThinSubmodule)) :
    (ThinCommit.new_rc cid tid ps gm bs).parents = ps := rfl

@[simp] theorem ThinCommit.submodule_bumps_new_rc (cid tid : Nat)
    (ps : List ThinCommit) (gm : Option Nat)
    (bs : List (GitPath × ThinSubmodule)) :
    (ThinCommit.new_rc cid tid ps gm bs).submodule_bumps = bs := rfl

@[simp] theorem ThinCommit.commit_id_new_rc (cid tid : Nat)
    (ps : List ThinCommit) (gm : Option Nat)
    (bs : List (GitPath × ThinSubmodule)) :
    (ThinCommit.new_rc cid tid ps gm bs).commit_id = cid := rfl

theorem firstParentChain_of_parents_nil {c : ThinCommit}
    (h : c.parents = []) : firstParentChain c = [c] := by
  rw [firstParentChain]
  split
  · rfl
  · next fp rest heq =>
      rw [h] at heq
      cases heq

theorem firstParentChain_of_parents_cons {c fp : ThinCommit}
    {rest : List ThinCommit} (h : c.parents = fp :: rest) :
    firstParentChain c = c :: firstParentChain fp := by
  rw [firstParentChain]
  split
  · next heq =>
      rw [h] at heq
      cases heq
  · next fp2 rest2 heq =>
      rw [h] at heq
      injection heq with h1 h2
      rw [h1]

/-- The fold of `submodule_bumps` along a first-parent chain listed newest
first, started from the empty set at the root. -/
def specFoldList (L : List ThinCommit) : List GitPath :=
  L.foldr (fun node acc => applyThinBumps node.submodule_bumps acc) []

theorem specFoldList_nil : specFoldList [] = [] := rfl

theorem specFoldList_cons (node : ThinCommit) (L : List ThinCommit) :
    specFoldList (node :: L)
      = applyThinBumps node.submodule_bumps (specFoldList L) := rfl

theorem specFoldList_nodup (L : List ThinCommit) : (specFoldList L).Nodup := by
  induction L with
  | nil => exact List.nodup_nil
  | cons node L' ih =>
    rw [specFoldList_cons]
    exact applyThinBumps_nodup _ _ ih

theorem built_parents {c : ThinCommit} (hb : Built c) :
    ∀ p ∈ c.parents, Built p := by
  cases hb with
  | intro cid tid ps dgm bumps hps hnd => simpa using hps

theorem built_bumps_nodup {c : ThinCommit} (hb : Built c) :
    (c.submodule_bumps.map Prod.fst).Nodup := by
  cases hb with
  | intro cid tid ps dgm bumps hps hnd => simpa using hnd

theorem built_paths_nodup {c : ThinCommit} (hb : Built c) :
    c.submodule_paths.Nodup := by
  induction hb with
  | intro cid tid ps dgm bumps hps hnd ih =>
    show (applyThinBumps bumps
      (match ps.head? with
       | some first => first.submodule_paths
       | none => [])).Nodup
    apply applyThinBumps_nodup
    cases ps with
    | nil => exact List.nodup_nil
    | cons fp rest => exact ih fp (List.mem_cons_self _ _)

theorem mem_applyThinBumps_congr (bumps : List (GitPath × ThinSubmodule)) :
    ∀ (i1 i2 : List GitPath), i1.Nodup → i2.Nodup →
      (∀ p, p ∈ i1 ↔ p ∈ i2) →
      ∀ p, p ∈ applyThinBumps bumps i1 ↔ p ∈ applyThinBumps bumps i2 := by
  induction bumps with
  | nil =>
    intro i1 i2 _ _ hm p
    exact hm p
  | cons qb rest ih =>
    intro i1 i2 h1 h2 hm p
    rcases qb with ⟨q, b⟩
    cases b with
    | AddedOrModified rn sc =>
      rw [applyThinBumps_cons_add, applyThinBumps_cons_add]
      refine ih _ _ (insertPath_nodup h1) (insertPath_nodup h2) (fun x => ?_) p
      rw [mem_insertPath, mem_insertPath, hm x]
    | Removed =>
      rw [applyThinBumps_cons_removed, applyThinBumps_cons_removed]
      refine ih _ _ (erasePath_nodup h1) (erasePath_nodup h2) (fun x => ?_) p
      by_cases hxq : x = q
      · subst hxq
        exact iff_of_false (not_mem_erasePath_self h1) (not_mem_erasePath_self h2)
      · rw [mem_erasePath_of_ne hxq, mem_erasePath_of_ne hxq, hm x]

theorem built_paths_eq_specFold {c : ThinCommit} (hb : Built c) :
    ∀ p, p ∈ c.submodule_paths ↔ p ∈ specFoldList (firstParentChain c) := by
  induction hb with
  | intro cid tid ps dgm bumps hps hnd ih =>
    intro p
    cases ps with
    | nil =>
      rw [firstParentChain_of_parents_nil
          (c := ThinCommit.new_rc cid tid [] dgm bumps) rfl,
        specFoldList_cons, specFoldList_nil]
      exact Iff.rfl
    | cons fp rest =>
      rw [firstParentChain_of_parents_cons
          (c := ThinCommit.new_rc cid tid (fp :: rest) dgm bumps) rfl,
        specFoldList_cons]
      show p ∈ applyThinBumps bumps fp.submodule_paths
        ↔ p ∈ applyThinBumps bumps (specFoldList (firstParentChain fp))
      exact mem_applyThinBumps_congr bumps _ _
        (built_paths_nodup (hps fp (List.mem_cons_self _ _)))
        (specFoldList_nodup _)
        (ih fp (List.mem_cons_self _ _)) p

theorem chain_built {c : ThinCommit} (hb : Built c) :
    ∀ x ∈ firstParentChain c, Built x := by
  induction hb with
  | intro cid tid ps dgm bumps hps hnd ih =>
    intro x hx
    cases ps with
    | nil =>
      rw [firstParentChain_of_parents_nil
          (c := ThinCommit.new_rc cid tid [] dgm bumps) rfl] at hx
      rcases List.mem_singleton.mp hx with rfl
      exact Built.intro _ _ _ _ _ hps hnd
    | cons fp rest =>
      rw [firstParentChain_of_parents_cons
          (c := ThinCommit.new_rc cid tid (fp :: rest) dgm bumps) rfl] at hx
      rcases List.mem_cons.mp hx with rfl | hx
      · exact Built.intro _ _ _ _ _ hps hnd
      · exact ih fp (List.mem_cons_self _ _) x hx

theorem mem_specFoldList_iff (L : List ThinCommit)
    (hk : ∀ node ∈ L, (node.submodule_bumps.map Prod.fst).Nodup) (p : GitPath) :
    p ∈ specFoldList L ↔
      ∃ (i : Nat) (node : ThinCommit), L[i]? = some node ∧
        (∃ rn sc, lookupBump node.submodule_bumps p
          = some (ThinSubmodule.AddedOrModified rn sc)) ∧
        ∀ (j : Nat), ∀ node' : ThinCommit, j < i → L[j]? = some node' →
          lookupBump node'.submodule_bumps p ≠ some ThinSubmodule.Removed := by
  induction L with
  | nil => simp [specFoldList]
  | cons node L' ih =>
    rw [specFoldList_cons,
      mem_applyThinBumps _ _ (hk node (List.mem_cons_self _ _))
        (specFoldList_nodup L') p]
    rcases hl : lookupBump node.submodule_bumps p with _ | s
    · have hiff := ih fun x hx => hk x (List.mem_cons_of_mem _ hx)
      have hshift :
          (∃ (i : Nat) (nd : ThinCommit), L'[i]? = some nd ∧
            (∃ rn sc, lookupBump nd.submodule_bumps p
              = some (ThinSubmodule.AddedOrModified rn sc)) ∧
            ∀ (j : Nat), ∀ nd' : ThinCommit, j < i → L'[j]? = some nd' →
              lookupBump nd'.submodule_bumps p ≠ some ThinSubmodule.Removed) ↔
          (∃ (i : Nat) (nd : ThinCommit), (node :: L')[i]? = some nd ∧
            (∃ rn sc, lookupBump nd.submodule_bumps p
              = some (ThinSubmodule.AddedOrModified rn sc)) ∧
            ∀ (j : Nat), ∀ nd' : ThinCommit, j < i → (node :: L')[j]? = some nd' →
              lookupBump nd'.submodule_bumps p ≠ some ThinSubmodule.Removed) := by
        constructor
        · rintro ⟨i, nd, hget, hadd, hprev⟩
          refine ⟨i + 1, nd, by simpa using hget, hadd, ?_⟩
          intro j nd' hj hget'
          cases j with
          | zero =>
            rw [List.getElem?_cons_zero] at hget'
            rcases Option.some.inj hget' with rfl
            rw [hl]
            intro hc
            cases hc
          | succ j' =>
            exact hprev j' nd' (Nat.lt_of_succ_lt_succ hj) (by simpa using hget')
        · rintro ⟨i, nd, hget, hadd, hprev⟩
          cases i with
          | zero =>
            rw [List.getElem?_cons_zero] at hget
            rcases Option.some.inj hget with rfl
            rcases hadd with ⟨rn, sc, hadd⟩
            rw [hl] at hadd
            cases hadd
          | succ i' =>
            refine ⟨i', nd, by simpa using hget, hadd, ?_⟩
            intro j nd' hj hget'
            exact hprev (j + 1) nd' (Nat.succ_lt_succ hj) (by simpa using hget')
      exact hiff.trans hshift
    · cases s with
      | AddedOrModified rn sc =>
        refine iff_of_true trivial
          ⟨0, node, by simp, ⟨rn, sc, hl⟩, ?_⟩
        intro j nd' hj hget'
        exact absurd hj (Nat.not_lt_zero j)
      | Removed =>
        refine iff_of_false (fun h => h) ?_
        rintro ⟨i, nd, hget, ⟨rn, sc, hadd⟩, hprev⟩
        cases i with
        | zero =>
          rw [List.getElem?_cons_zero] at hget
          rcases Option.some.inj hget with rfl
          rw [hl] at hadd
          cases hadd
        | succ i' =>
          exact hprev 0 node (Nat.succ_pos i') (by simp) hl

/-- C4: for every commit built hereditarily by `ThinCommit::new_rc`, the
stored `submodule_paths` set equals the fold of `submodule_bumps` along the
first-parent chain, and a path is a member iff some first-parent ancestor
(the commit included) records an `AddedOrModified` bump for it that is not
revoked by a `Removed` bump closer to the commit. -/
theorem thin_submodule_paths_spec (c : ThinCommit) (hb : Built c) :
    (∀ p, p ∈ c.submodule_paths ↔ p ∈ specFoldList (firstParentChain c)) ∧
    (∀ p, p ∈ c.submodule_paths ↔
      ∃ (i : Nat) (node : ThinCommit), (firstParentChain c)[i]? = some node ∧
        (∃ rn sc, lookupBump node.submodule_bumps p
          = some (ThinSubmodule.AddedOrModified rn sc)) ∧
        ∀ (j : Nat), ∀ node' : ThinCommit, j < i → (firstParentChain c)[j]? = some node' →
          lookupBump node'.submodule_bumps p ≠ some ThinSubmodule.Removed) := by
  have ha := built_paths_eq_specFold hb
  refine ⟨ha, fun p => ?_⟩
  rw [ha p]
  exact mem_specFoldList_iff (firstParentChain c)
    (fun node hnode => built_bumps_nodup (chain_built hb node hnode)) p

/-- Removal followed by re-addition of the same path, the toggling example
of the spec. -/
def thinExA : ThinCommit :=
  ThinCommit.new_rc 0 0 [] none
    [("a".data, ThinSubmodule.AddedOrModified none 5)]

def thinExB : ThinCommit :=
  ThinCommit.new_rc 1 0 [thinExA] none [("a".data, ThinSubmodule.Removed)]

def thinExC : ThinCommit :=
  ThinCommit.new_rc 2 0 [thinExB] none
    [("a".data, ThinSubmodule.AddedOrModified none 7)]

theorem built_thinExA : Built thinExA :=
  Built.intro 0 0 [] none _ (fun p hp => absurd hp (List.not_mem_nil p)) (by simp)

theorem built_thinExB : Built thinExB :=
  Built.intro 1 0 [thinExA] none _
    (fun p hp => by
      rcases List.mem_singleton.mp hp with rfl
      exact built_thinExA)
    (by simp)

theorem built_thinExC : Built thinExC :=
  Built.intro 2 0 [thinExB] none _
    (fun p hp => by
      rcases List.mem_singleton.mp hp with rfl
      exact built_thinExB)
    (by simp)

/-- Witness for C4 on the remove-then-re-add chain. -/
theorem thin_submodule_paths_spec_witness :
    Built thinExC ∧
    (∀ p, p ∈ thinExC.submodule_paths
      ↔ p ∈ specFoldList (firstParentChain thinExC)) :=
  ⟨built_thinExC, (thin_submodule_paths_spec thinExC built_thinExC).1⟩

/-! ### Reachability through parent edges -/

mutual

def nodesList : ThinCommit → List ThinCommit
  | .mk cid tid d ps gm bs paths =>
      ThinCommit.mk cid tid d ps gm bs paths :: nodesListL ps

def nodesListL : List ThinCommit → List ThinCommit
  | [] => []
  | c :: cs => nodesList c ++ nodesListL cs

end

theorem nodesList_eq (c : ThinCommit) :
    nodesList c = c :: nodesListL c.parents := by
  cases c
  rfl

theorem self_mem_nodesList (c : ThinCommit) : c ∈ nodesList c := by
  rw [nodesList_eq]
  exact List.mem_cons_self _ _

theorem mem_nodesListL_of {p x : ThinCommit} {ps : List ThinCommit}
    (hp : p ∈ ps) (hx : x ∈ nodesList p) : x ∈ nodesListL ps := by
  induction ps with
  | nil => cases hp
  | cons c cs ih =>
    show x ∈ nodesList c ++ nodesListL cs
    rcases List.mem_cons.mp hp with rfl | hp
    · exact List.mem_append_left _ hx
    · exact List.mem_append_right _ (ih hp)

theorem nodesListL_mem_decomp {x : ThinCommit} {ps : List ThinCommit}
    (hx : x ∈ nodesListL ps) : ∃ p ∈ ps, x ∈ nodesList p := by
  induction ps with
  | nil => cases hx
  | cons c cs ih =>
    rcases List.mem_append.mp hx with h | h
    · exact ⟨c, List.mem_cons_self _ _, h⟩
    · rcases ih h with ⟨p, hp, hxp⟩
      exact ⟨p, List.mem_cons_of_mem _ hp, hxp⟩

/-- `Reach a b` says `b` is reachable from `a` by following parent edges
(in zero or more steps). -/
inductive Reach : ThinCommit → ThinCommit → Prop where
  | refl (a : ThinCommit) : Reach a a
  | step {a b c : ThinCommit} : b ∈ a.parents → Reach b c → Reach a c

theorem reach_mem {a x : ThinCommit} (h : Reach a x) : x ∈ nodesList a := by
  induction h with
  | refl a => exact self_mem_nodesList a
  | step hmem hsub ih =>
    rw [nodesList_eq]
    exact List.mem_cons_of_mem _ (mem_nodesListL_of hmem ih)

theorem mem_reach (a x : ThinCommit) (h : x ∈ nodesList a) : Reach a x := by
  rw [nodesList_eq] at h
  rcases List.mem_cons.mp h with rfl | h
  · exact Reach.refl _
  · rcases nodesListL_mem_decomp h with ⟨p, hp, hx⟩
    exact Reach.step hp (mem_reach p x hx)
termination_by a.size
decreasing_by
  exact ThinCommit.size_lt_of_mem_parents hp

theorem reach_trans {a b c : ThinCommit} (h1 : Reach a b) (h2 : Reach b c) :
    Reach a c := by
  induction h1 with
  | refl a => exact h2
  | step hmem hsub ih => exact Reach.step hmem (ih h2)

theorem reach_size_le {a x : ThinCommit} (h : Reach a x) : x.size ≤ a.size := by
  induction h with
  | refl a => exact le_refl _
  | step hmem hsub ih =>
    exact le_trans ih (le_of_lt (ThinCommit.size_lt_of_mem_parents hmem))

theorem reach_ne_size_lt {a b : ThinCommit} (h : Reach a b) (hne : a ≠ b) :
    b.size < a.size := by
  cases h with
  | refl => exact absurd rfl hne
  | step hmem hsub =>
    exact lt_of_le_of_lt (reach_size_le hsub)
      (ThinCommit.size_lt_of_mem_parents hmem)

/-- The hereditary depth invariant: along every reachable node, each parent
edge strictly decreases `depth`. -/
def DepthInv (c : ThinCommit) : Prop :=
  ∀ x, Reach c x → ∀ p ∈ x.parents, p.depth < x.depth

theorem depth_le_of_reach {a : ThinCommit} (hd : DepthInv a) {x y : ThinCommit}
    (hxy : Reach x y) : Reach a x → y.depth ≤ x.depth := by
  induction hxy with
  | refl x => exact fun _ => le_refl _
  | step hmem hsub ih =>
    rename_i x' b' y'
    intro hax
    have hb : b'.depth < x'.depth := hd x' hax b' hmem
    have hab : Reach a b' := reach_trans hax (Reach.step hmem (Reach.refl _))
    exact le_trans (ih hab) (le_of_lt hb)

/-- `PathP a l t` lists the nodes of a parent-edge walk from `a` to `t`,
excluding `a` itself (so `l = []` means `t = a`). -/
inductive PathP : ThinCommit → List ThinCommit → ThinCommit → Prop where
  | nil (a : ThinCommit) : PathP a [] a
  | cons {a b t : ThinCommit} {l : List ThinCommit} :
      b ∈ a.parents → PathP b l t → PathP a (b :: l) t

theorem reach_to_path {a b : ThinCommit} (h : Reach a b) :
    ∃ l, PathP a l b := by
  induction h with
  | refl a => exact ⟨[], PathP.nil a⟩
  | step hmem hsub ih =>
    rcases ih with ⟨l, hl⟩
    exact ⟨_ :: l, PathP.cons hmem hl⟩

theorem path_to_reach {a t : ThinCommit} {l : List ThinCommit}
    (h : PathP a l t) : Reach a t := by
  induction h with
  | nil a => exact Reach.refl a
  | cons hmem hsub ih => exact Reach.step hmem ih

theorem pathp_mem_reaches_target {a t : ThinCommit} {l : List ThinCommit}
    (h : PathP a l t) : ∀ x ∈ l, Reach x t := by
  induction h with
  | nil a => intro x hx; cases hx
  | cons hmem hsub ih =>
    intro x hx
    rcases List.mem_cons.mp hx with rfl | hx
    · exact path_to_reach hsub
    · exact ih x hx

theorem pathp_mem_reach_from_start {a t : ThinCommit} {l : List ThinCommit}
    (h : PathP a l t) : ∀ x ∈ l, Reach a x := by
  induction h with
  | nil a => intro x hx; cases hx
  | cons hmem hsub ih =>
    intro x hx
    rcases List.mem_cons.mp hx with rfl | hx
    · exact Reach.step hmem (Reach.refl _)
    · exact Reach.step hmem (ih x hx)

theorem pathp_suffix {a t x : ThinCommit} :
    ∀ {pre post : List ThinCommit}, PathP a (pre ++ x :: post) t →
      PathP x post t := by
  intro pre
  induction pre generalizing a with
  | nil =>
    intro post h
    cases h with
    | cons hmem hsub => exact hsub
  | cons y pre' ih =>
    intro post h
    cases h with
    | cons hmem hsub => exact ih hsub

theorem pathp_size_lt {a t : ThinCommit} {l : List ThinCommit}
    (h : PathP a l t) : ∀ x ∈ l, x.size < a.size := by
  cases h with
  | nil => intro x hx; cases hx
  | cons hmem hsub =>
    intro x hx
    rcases List.mem_cons.mp hx with rfl | hx
    · exact ThinCommit.size_lt_of_mem_parents hmem
    · exact lt_of_le_of_lt
        (reach_size_le (pathp_mem_reach_from_start hsub x hx))
        (ThinCommit.size_lt_of_mem_parents hmem)

/-! ### `ThinCommit::is_descendant_of`

The Rust loop pops from a stack `queue`, checks the commit id against the
ancestor, and pushes each parent that survives the depth pruning and whose
id is newly inserted into `visited`. The loop is modelled with explicit
fuel; `size` (the node count) bounds the number of iterations, because
every push consumes a fresh commit id. -/

/-- One `for descendant_parent in descendant.parents` body: push the parent
when its depth is not pruned and its id is new in `visited`. -/
def pushStep (ancestor : ThinCommit) (qv : List ThinCommit × List CommitId)
    (p : ThinCommit) : List ThinCommit × List CommitId :=
  if ancestor.depth ≤ p.depth ∧ p.commit_id ∉ qv.2
  then (p :: qv.1, p.commit_id :: qv.2) else qv

def isDescLoop (ancestor : ThinCommit) :
    Nat → List ThinCommit → List CommitId → Bool
  | 0, _, _ => false
  | _ + 1, [], _ => false
  | fuel + 1, d :: queue, visited =>
    if d.commit_id = ancestor.commit_id then true
    else
      isDescLoop ancestor fuel
        (d.parents.foldl (pushStep ancestor) (queue, visited)).1
        (d.parents.foldl (pushStep ancestor) (queue, visited)).2

/-- Models `ThinCommit::is_descendant_of`. -/
def is_descendant_of (self ancestor : ThinCommit) : Bool :=
  isDescLoop ancestor self.size [self] [self.commit_id]

theorem isDescLoop_zero (t : ThinCommit) (q : List ThinCommit)
    (v : List CommitId) : isDescLoop t 0 q v = false := rfl

theorem isDescLoop_nil (t : ThinCommit) (fuel : Nat) (v : List CommitId) :
    isDescLoop t (fuel + 1) [] v = false := rfl

theorem isDescLoop_succ_cons (t : ThinCommit) (fuel : Nat) (d : ThinCommit)
    (queue : List ThinCommit) (v : List CommitId) :
    isDescLoop t (fuel + 1) (d :: queue) v =
      if d.commit_id = t.commit_id then true
      else
        isDescLoop t fuel
          (d.parents.foldl (pushStep t) (queue, v)).1
          (d.parents.foldl (pushStep t) (queue, v)).2 := rfl

theorem pushStep_queue_mono (t : ThinCommit) (qv : List ThinCommit × List CommitId)
    (p x : ThinCommit) (h : x ∈ qv.1) : x ∈ (pushStep t qv p).1 := by
  unfold pushStep
  split
  · exact List.mem_cons_of_mem _ h
  · exact h

theorem pushStep_visited_mono (t : ThinCommit)
    (qv : List ThinCommit × List CommitId) (p : ThinCommit) (i : CommitId)
    (h : i ∈ qv.2) : i ∈ (pushStep t qv p).2 := by
  unfold pushStep
  split
  · exact List.mem_cons_of_mem _ h
  · exact h

theorem foldl_pushStep_queue_mono (t : ThinCommit) (parents : List ThinCommit) :
    ∀ (init : List ThinCommit × List CommitId) (x : ThinCommit), x ∈ init.1 →
      x ∈ (parents.foldl (pushStep t) init).1 := by
  induction parents with
  | nil => intro init x h; exact h
  | cons p ps ih =>
    intro init x h
    exact ih (pushStep t init p) x (pushStep_queue_mono t init p x h)

theorem foldl_pushStep_visited_mono (t : ThinCommit) (parents : List ThinCommit) :
    ∀ (init : List ThinCommit × List CommitId) (i : CommitId), i ∈ init.2 →
      i ∈ (parents.foldl (pushStep t) init).2 := by
  induction parents with
  | nil => intro init i h; exact h
  | cons p ps ih =>
    intro init i h
    exact ih (pushStep t init p) i (pushStep_visited_mono t init p i h)

theorem foldl_pushStep_queue_from (t : ThinCommit) (parents : List ThinCommit) :
    ∀ (init : List ThinCommit × List CommitId) (x : ThinCommit),
      x ∈ (parents.foldl (pushStep t) init).1 → x ∈ init.1 ∨ x ∈ parents := by
  induction parents with
  | nil => intro init x h; exact Or.inl h
  | cons p ps ih =>
    intro init x h
    rcases ih (pushStep t init p) x h with h | h
    · unfold pushStep at h
      split at h
      · rcases List.mem_cons.mp h with rfl | h
        · exact Or.inr (List.mem_cons_self _ _)
        · exact Or.inl h
      · exact Or.inl h
    · exact Or.inr (List.mem_cons_of_mem _ h)

theorem foldl_pushStep_new_visited (t : ThinCommit) (parents : List ThinCommit) :
    ∀ (init : List ThinCommit × List CommitId) (i : CommitId),
      i ∈ (parents.foldl (pushStep t) init).2 → i ∉ init.2 →
      ∃ x, x ∈ (parents.foldl (pushStep t) init).1 ∧ x ∈ parents ∧
        x.commit_id = i := by
  induction parents with
  | nil =>
    intro init i h hni
    exact absurd h hni
  | cons p ps ih =>
    intro init i h hni
    by_cases hcond : t.depth ≤ p.depth ∧ p.commit_id ∉ init.2
    · have h1 : pushStep t init p = (p :: init.1, p.commit_id :: init.2) := by
        unfold pushStep
        rw [if_pos hcond]
      by_cases hstep : i ∈ (pushStep t init p).2
      · have hip : i = p.commit_id := by
          rw [h1] at hstep
          rcases List.mem_cons.mp hstep with hstep | hstep
          · exact hstep
          · exact absurd hstep hni
        refine ⟨p, ?_, List.mem_cons_self _ _, hip.symm⟩
        apply foldl_pushStep_queue_mono t ps (pushStep t init p)
        rw [h1]
        exact List.mem_cons_self _ _
      · rcases ih (pushStep t init p) i h hstep with ⟨x, hx1, hx2, hx3⟩
        exact ⟨x, hx1, List.mem_cons_of_mem _ hx2, hx3⟩
    · have h1 : pushStep t init p = init := by
        unfold pushStep
        rw [if_neg hcond]
      have hstep : i ∉ (pushStep t init p).2 := by
        rw [h1]
        exact hni
      rcases ih (pushStep t init p) i h hstep with ⟨x, hx1, hx2, hx3⟩
      exact ⟨x, hx1, List.mem_cons_of_mem _ hx2, hx3⟩

theorem foldl_pushStep_depth_ok_visited (t : ThinCommit)
    (parents : List ThinCommit) :
    ∀ (init : List ThinCommit × List CommitId) (p : ThinCommit), p ∈ parents →
      t.depth ≤ p.depth → p.commit_id ∈ (parents.foldl (pushStep t) init).2 := by
  induction parents with
  | nil => intro init p h; cases h
  | cons q ps ih =>
    intro init p hp hdep
    rcases List.mem_cons.mp hp with rfl | hp
    · have hmem2 : p.commit_id ∈ (pushStep t init p).2 := by
        by_cases hcond : t.depth ≤ p.depth ∧ p.commit_id ∉ init.2
        · have h1 : pushStep t init p = (p :: init.1, p.commit_id :: init.2) := by
            unfold pushStep
            rw [if_pos hcond]
          rw [h1]
          exact List.mem_cons_self _ _
        · have h1 : pushStep t init p = init := by
            unfold pushStep
            rw [if_neg hcond]
          rw [h1]
          rcases not_and_or.mp hcond with h | h
          · exact absurd hdep h
          · exact not_not.mp h
      exact foldl_pushStep_visited_mono t ps (pushStep t init p) p.commit_id hmem2
    · exact ih (pushStep t init q) p hp hdep

/-- Commit ids of all nodes of a tree, de-duplicated. -/
def idsOf (a : ThinCommit) : List CommitId :=
  ((nodesList a).map ThinCommit.commit_id).dedup

/-- Number of universe ids not yet visited. -/
def countRemaining (univ v : List CommitId) : Nat :=
  (univ.filter fun i => decide (i ∉ v)).length

theorem countRemaining_nil_visited (univ : List CommitId) :
    countRemaining univ [] = univ.length := by
  unfold countRemaining
  rw [List.filter_eq_self.mpr]
  intro a _
  simp

theorem countRemaining_cons {univ : List CommitId} (hnd : univ.Nodup)
    {i : CommitId} (hiu : i ∈ univ) {v : List CommitId} (hiv : i ∉ v) :
    countRemaining univ (i :: v) + 1 = countRemaining univ v := by
  unfold countRemaining
  induction univ with
  | nil => cases hiu
  | cons x u ih =>
    rw [List.nodup_cons] at hnd
    rcases List.mem_cons.mp hiu with rfl | hiu
    · have h1 : (decide (i ∉ i :: v)) = false := by simp
      have h2 : (decide (i ∉ v)) = true := by simpa using hiv
      rw [List.filter_cons, List.filter_cons, h1, h2]
      have hfeq : (u.filter fun j => decide (j ∉ i :: v))
          = u.filter fun j => decide (j ∉ v) := by
        apply List.filter_congr
        intro j hj
        have hji : j ≠ i := fun he => hnd.1 (he ▸ hj)
        simp [hji]
      rw [hfeq]
      simp [Nat.add_comm]
    · have hxi : x ≠ i := fun he => hnd.1 (he ▸ hiu)
      have hsame : (decide (x ∉ i :: v)) = (decide (x ∉ v)) := by
        simp [hxi]
      rw [List.filter_cons, List.filter_cons, hsame]
      rcases hb : decide (x ∉ v) with _ | _
      · rw [if_neg (by simp), if_neg (by simp)]
        exact ih hnd.2 hiu
      · rw [if_pos rfl, if_pos rfl, List.length_cons, List.length_cons]
        have := ih hnd.2 hiu
        omega

theorem foldl_pushStep_count (t : ThinCommit) (univ : List CommitId)
    (hnd : univ.Nodup) (parents : List ThinCommit)
    (hmem : ∀ p ∈ parents, p.commit_id ∈ univ) :
    ∀ (init : List ThinCommit × List CommitId),
      countRemaining univ (parents.foldl (pushStep t) init).2
          + (parents.foldl (pushStep t) init).1.length
        ≤ countRemaining univ init.2 + init.1.length := by
  induction parents with
  | nil => intro init; exact le_refl _
  | cons p ps ih =>
    intro init
    have hmem' : ∀ q ∈ ps, q.commit_id ∈ univ :=
      fun q hq => hmem q (List.mem_cons_of_mem _ hq)
    refine le_trans (ih hmem' (pushStep t init p)) ?_
    by_cases hcond : t.depth ≤ p.depth ∧ p.commit_id ∉ init.2
    · have h1 : pushStep t init p = (p :: init.1, p.commit_id :: init.2) := by
        unfold pushStep
        rw [if_pos hcond]
      rw [h1]
      show countRemaining univ (p.commit_id :: init.2) + (init.1.length + 1)
        ≤ countRemaining univ init.2 + init.1.length
      have := countRemaining_cons hnd (hmem p (List.mem_cons_self _ _)) hcond.2
      omega
    · have h1 : pushStep t init p = init := by
        unfold pushStep
        rw [if_neg hcond]
      rw [h1]

theorem isDescLoop_sound (t : ThinCommit) :
    ∀ (fuel : Nat) (q : List ThinCommit) (v : List CommitId),
      isDescLoop t fuel q v = true →
      ∃ s ∈ q, ∃ x, Reach s x ∧ x.commit_id = t.commit_id := by
  intro fuel
  induction fuel with
  | zero =>
    intro q v h
    rw [isDescLoop_zero] at h
    cases h
  | succ fuel ih =>
    intro q v h
    cases q with
    | nil =>
      rw [isDescLoop_nil] at h
      cases h
    | cons d queue =>
      rw [isDescLoop_succ_cons] at h
      by_cases hd : d.commit_id = t.commit_id
      · exact ⟨d, List.mem_cons_self _ _, d, Reach.refl d, hd⟩
      · rw [if_neg hd] at h
        rcases ih _ _ h with ⟨s, hs, x, hr, hx⟩
        rcases foldl_pushStep_queue_from t d.parents (queue, v) s hs with hs' | hs'
        · exact ⟨s, List.mem_cons_of_mem _ hs', x, hr, hx⟩
        · exact ⟨d, List.mem_cons_self _ _, x, Reach.step hs' hr, hx⟩

theorem exists_last_satisfying {α : Type} (P : α → Prop) :
    ∀ (l : List α), (∃ x ∈ l, P x) →
      ∃ pre x post, l = pre ++ x :: post ∧ P x ∧ ∀ y ∈ post, ¬ P y := by
  intro l
  induction l with
  | nil =>
    rintro ⟨x, hx, _⟩
    cases hx
  | cons a l' ih =>
    intro h
    by_cases h' : ∃ x ∈ l', P x
    · rcases ih h' with ⟨pre, x, post, rfl, hP, hpost⟩
      exact ⟨a :: pre, x, post, rfl, hP, hpost⟩
    · have hPa : P a := by
        rcases h with ⟨x, hx, hPx⟩
        rcases List.mem_cons.mp hx with rfl | hx
        · exact hPx
        · exact absurd ⟨x, hx, hPx⟩ h'
      refine ⟨[], a, l', rfl, hPa, ?_⟩
      intro y hy hPy
      exact h' ⟨y, hy, hPy⟩

theorem recut (t t' : ThinCommit) (v2 : List CommitId) (q2 : List ThinCommit) :
    ∀ (l : List ThinCommit) (s : ThinCommit), s ∈ q2 → PathP s l t' →
      (∀ x ∈ l, t.depth ≤ x.depth) →
      (∀ x ∈ l, x.commit_id ∈ v2 → x ∈ q2) →
      ∃ s2 ∈ q2, ∃ l2, PathP s2 l2 t' ∧ (∀ x ∈ l2, t.depth ≤ x.depth) ∧
        (∀ x ∈ l2, x.commit_id ∉ v2) := by
  intro l s hs hpath hdep hvq
  by_cases hvis : ∃ x ∈ l, x.commit_id ∈ v2
  · rcases exists_last_satisfying (fun x => x.commit_id ∈ v2) l hvis
      with ⟨pre, x0, post, rfl, hP, hpost⟩
    refine ⟨x0, hvq x0 (by simp) hP, post, pathp_suffix hpath, ?_, ?_⟩
    · intro x hx
      exact hdep x (by simp [hx])
    · intro x hx
      exact hpost x hx
  · refine ⟨s, hs, l, hpath, hdep, ?_⟩
    intro x hx hxv
    exact hvis ⟨x, hx, hxv⟩

theorem isDescLoop_complete (a t : ThinCommit)
    (hinj : ∀ x ∈ nodesList a, ∀ y ∈ nodesList a,
      x.commit_id = y.commit_id → x = y) :
    ∀ (fuel : Nat) (q : List ThinCommit) (v : List CommitId),
      (∀ s ∈ q, Reach a s) →
      countRemaining (idsOf a) v + q.length ≤ fuel →
      (∃ s ∈ q, ∃ l t', PathP s l t' ∧ t'.commit_id = t.commit_id ∧
        (∀ x ∈ l, t.depth ≤ x.depth) ∧ (∀ x ∈ l, x.commit_id ∉ v)) →
      isDescLoop t fuel q v = true := by
  intro fuel
  induction fuel with
  | zero =>
    intro q v hq hfuel hinv
    rcases hinv with ⟨s, hs, _⟩
    have h1 : 1 ≤ q.length := List.length_pos.mpr (List.ne_nil_of_mem hs)
    omega
  | succ fuel ih =>
    intro q v hq hfuel hinv
    cases q with
    | nil =>
      rcases hinv with ⟨s, hs, _⟩
      cases hs
    | cons d queue =>
      rw [isDescLoop_succ_cons]
      by_cases hd : d.commit_id = t.commit_id
      · rw [if_pos hd]
      · rw [if_neg hd]
        set r := d.parents.foldl (pushStep t) (queue, v) with hrdef
        have hq2 : ∀ s ∈ r.1, Reach a s := by
          intro s hsr
          rcases foldl_pushStep_queue_from t d.parents (queue, v) s hsr
            with hsq | hsp
          · exact hq s (List.mem_cons_of_mem _ hsq)
          · exact reach_trans (hq d (List.mem_cons_self _ _))
              (Reach.step hsp (Reach.refl s))
        have hmemuniv : ∀ p ∈ d.parents, p.commit_id ∈ idsOf a := by
          intro p hp
          have hreach : Reach a p :=
            reach_trans (hq d (List.mem_cons_self _ _))
              (Reach.step hp (Reach.refl p))
          unfold idsOf
          rw [List.mem_dedup]
          exact List.mem_map_of_mem _ (reach_mem hreach)
        have hfuel2 : countRemaining (idsOf a) r.2 + r.1.length ≤ fuel := by
          have hcount := foldl_pushStep_count t (idsOf a)
            (List.nodup_dedup _) d.parents hmemuniv (queue, v)
          rw [List.length_cons] at hfuel
          rw [← hrdef] at hcount
          have hcount' : countRemaining (idsOf a) r.2 + r.1.length
              ≤ countRemaining (idsOf a) v + queue.length := hcount
          omega
        rcases hinv with ⟨s, hs, l, t', hpath, hid, hdep, hunvis⟩
        have hvq : ∀ x ∈ l, x.commit_id ∈ r.2 → x ∈ r.1 := by
          intro x hx hxv
          have hxnv : x.commit_id ∉ v := hunvis x hx
          rcases foldl_pushStep_new_visited t d.parents (queue, v)
            x.commit_id (hrdef ▸ hxv) hxnv with ⟨y, hy1, hy2, hy3⟩
          have hax : Reach a x :=
            reach_trans (hq s hs) (pathp_mem_reach_from_start hpath x hx)
          have hay : Reach a y :=
            reach_trans (hq d (List.mem_cons_self _ _))
              (Reach.step hy2 (Reach.refl y))
          have hyx : y = x := hinj y (reach_mem hay) x (reach_mem hax) hy3
          rw [hrdef]
          exact hyx ▸ hy1
        rcases List.mem_cons.mp hs with rfl | hsq
        · cases hpath with
          | nil => exact absurd hid hd
          | cons hbmem hbpath =>
            rename_i b l'
            have hbdep : t.depth ≤ b.depth := hdep b (List.mem_cons_self _ _)
            have hbnv : b.commit_id ∉ v := hunvis b (List.mem_cons_self _ _)
            have hbvis : b.commit_id ∈ r.2 := by
              rw [hrdef]
              exact foldl_pushStep_depth_ok_visited t _ (queue, v) b hbmem hbdep
            have hbq : b ∈ r.1 := hvq b (List.mem_cons_self _ _) hbvis
            rcases recut t t' r.2 r.1 l' b hbq hbpath
              (fun x hx => hdep x (List.mem_cons_of_mem _ hx))
              (fun x hx => hvq x (List.mem_cons_of_mem _ hx))
              with ⟨s2, hs2, l2, hp2, hd2, hv2⟩
            exact ih r.1 r.2 hq2 hfuel2 ⟨s2, hs2, l2, t', hp2, hid, hd2, hv2⟩
        · have hsq2 : s ∈ r.1 := by
            rw [hrdef]
            exact foldl_pushStep_queue_mono t _ (queue, v) s hsq
          rcases recut t t' r.2 r.1 l s hsq2 hpath hdep hvq
            with ⟨s2, hs2, l2, hp2, hd2, hv2⟩
          exact ih r.1 r.2 hq2 hfuel2 ⟨s2, hs2, l2, t', hp2, hid, hd2, hv2⟩

mutual

theorem length_nodesList : ∀ c : ThinCommit, (nodesList c).length = c.size
  | .mk cid tid d ps gm bs paths => by
    show (ThinCommit.mk cid tid d ps gm bs paths :: nodesListL ps).length
      = 1 + ThinCommit.sizeList ps
    rw [List.length_cons, length_nodesListL ps]
    omega

theorem length_nodesListL :
    ∀ ps : List ThinCommit, (nodesListL ps).length = ThinCommit.sizeList ps
  | [] => rfl
  | c :: cs => by
    show (nodesList c ++ nodesListL cs).length
      = c.size + ThinCommit.sizeList cs
    rw [List.length_append, length_nodesList c, length_nodesListL cs]

end

/-- C6: for commits whose node sets carry pairwise distinct commit ids and
satisfy the depth invariant, `is_descendant_of` is reflexive, decides
reachability through parent edges for distinct commits, and is antisymmetric
on distinct commits. -/
theorem is_descendant_of_spec (a b : ThinCommit)
    (hinj : ∀ x ∈ nodesList a ++ nodesList b, ∀ y ∈ nodesList a ++ nodesList b,
      x.commit_id = y.commit_id → x = y)
    (hda : DepthInv a) (hdb : DepthInv b) :
    is_descendant_of a a = true ∧
    (a ≠ b → (is_descendant_of a b = true ↔ Reach a b)) ∧
    (a ≠ b → ¬(is_descendant_of a b = true ∧ is_descendant_of b a = true)) := by
  have hinja : ∀ x ∈ nodesList a, ∀ y ∈ nodesList a,
      x.commit_id = y.commit_id → x = y :=
    fun x hx y hy =>
      hinj x (List.mem_append_left _ hx) y (List.mem_append_left _ hy)
  have hfwd_ab : is_descendant_of a b = true → Reach a b := by
    intro htrue
    rcases isDescLoop_sound b a.size [a] [a.commit_id] htrue
      with ⟨s, hs, x, hr, hx⟩
    rcases List.mem_singleton.mp hs with rfl
    have hxb : x = b := hinj x (List.mem_append_left _ (reach_mem hr))
      b (List.mem_append_right _ (self_mem_nodesList b)) hx
    exact hxb ▸ hr
  have hfwd_ba : is_descendant_of b a = true → Reach b a := by
    intro htrue
    rcases isDescLoop_sound a b.size [b] [b.commit_id] htrue
      with ⟨s, hs, x, hr, hx⟩
    rcases List.mem_singleton.mp hs with rfl
    have hxa : x = a := hinj x (List.mem_append_right _ (reach_mem hr))
      a (List.mem_append_left _ (self_mem_nodesList a)) hx
    exact hxa ▸ hr
  refine ⟨?_, fun hne => ⟨hfwd_ab, ?_⟩, fun hne hboth => ?_⟩
  · have hsize : a.size = (a.size - 1) + 1 :=
      (Nat.succ_pred_eq_of_pos (ThinCommit.size_pos a)).symm
    show isDescLoop a a.size [a] [a.commit_id] = true
    rw [hsize, isDescLoop_succ_cons, if_pos rfl]
  · intro hr
    rcases reach_to_path hr with ⟨l, hpath⟩
    show isDescLoop b a.size [a] [a.commit_id] = true
    apply isDescLoop_complete a b hinja a.size [a] [a.commit_id]
    · intro s hs
      rcases List.mem_singleton.mp hs with rfl
      exact Reach.refl _
    · have haid : a.commit_id ∈ idsOf a := by
        unfold idsOf
        rw [List.mem_dedup]
        exact List.mem_map_of_mem _ (self_mem_nodesList a)
      have h1 : countRemaining (idsOf a) [a.commit_id] + 1
          = countRemaining (idsOf a) [] :=
        countRemaining_cons (List.nodup_dedup _) haid (by simp)
      have h2 : (idsOf a).length ≤ a.size := by
        calc (idsOf a).length
            ≤ ((nodesList a).map ThinCommit.commit_id).length :=
              (List.dedup_sublist _).length_le
          _ = (nodesList a).length := List.length_map _ _
          _ = a.size := length_nodesList a
      rw [List.length_singleton, h1, countRemaining_nil_visited]
      exact h2
    · refine ⟨a, List.mem_singleton_self a, l, b, hpath, rfl, ?_, ?_⟩
      · intro x hx
        exact depth_le_of_reach hda (pathp_mem_reaches_target hpath x hx)
          (pathp_mem_reach_from_start hpath x hx)
      · intro x hx hmem
        have hxid : x.commit_id = a.commit_id := List.mem_singleton.mp hmem
        have hxa : x = a := hinja x
          (reach_mem (pathp_mem_reach_from_start hpath x hx))
          a (self_mem_nodesList a) hxid
        have hlt : x.size < a.size := pathp_size_lt hpath x hx
        rw [hxa] at hlt
        exact lt_irrefl _ hlt
  · have hab := hfwd_ab hboth.1
    have hba := hfwd_ba hboth.2
    have h1 := reach_ne_size_lt hab hne
    have h2 := reach_ne_size_lt hba (Ne.symm hne)
    omega

def descExB : ThinCommit := ThinCommit.new_rc 0 0 [] none []

def descExA : ThinCommit := ThinCommit.new_rc 1 0 [descExB] none []

theorem nodesList_descExA : nodesList descExA = [descExA, descExB] := rfl

theorem nodesList_descExB : nodesList descExB = [descExB] := rfl

theorem depthInv_descExA : DepthInv descExA := by
  intro x hx p hp
  have hxmem : x ∈ nodesList descExA := reach_mem hx
  rw [nodesList_descExA] at hxmem
  rcases List.mem_cons.mp hxmem with rfl | hxmem
  · have hp' : p = descExB := by
      have hpar : descExA.parents = [descExB] := rfl
      rw [hpar] at hp
      exact List.mem_singleton.mp hp
    subst hp'
    decide
  · rcases List.mem_singleton.mp hxmem with rfl
    have hpar : descExB.parents = [] := rfl
    rw [hpar] at hp
    cases hp

theorem depthInv_descExB : DepthInv descExB := by
  intro x hx p hp
  have hxmem : x ∈ nodesList descExB := reach_mem hx
  rw [nodesList_descExB] at hxmem
  rcases List.mem_singleton.mp hxmem with rfl
  have hpar : descExB.parents = [] := rfl
  rw [hpar] at hp
  cases hp

theorem inj_descEx : ∀ x ∈ nodesList descExA ++ nodesList descExB,
    ∀ y ∈ nodesList descExA ++ nodesList descExB,
    x.commit_id = y.commit_id → x = y := by
  have hconcat : nodesList descExA ++ nodesList descExB
      = [descExA, descExB, descExB] := rfl
  rw [hconcat]
  intro x hx y hy hxy
  rcases List.mem_cons.mp hx with rfl | hx
  · rcases List.mem_cons.mp hy with rfl | hy
    · rfl
    · rcases List.mem_cons.mp hy with rfl | hy
      · exact absurd hxy (by decide)
      · rcases List.mem_singleton.mp hy with rfl
        exact absurd hxy (by decide)
  · rcases List.mem_cons.mp hx with rfl | hx
    · rcases List.mem_cons.mp hy with rfl | hy
      · exact absurd hxy (by decide)
      · rcases List.mem_cons.mp hy with rfl | hy
        · rfl
        · rcases List.mem_singleton.mp hy with rfl
          rfl
    · rcases List.mem_singleton.mp hx with rfl
      rcases List.mem_cons.mp hy with rfl | hy
      · exact absurd hxy (by decide)
      · rcases List.mem_cons.mp hy with rfl | hy
        · rfl
        · rcases List.mem_singleton.mp hy with rfl
          rfl

/-- Witness for C6 on a two-commit chain. -/
theorem is_descendant_of_spec_witness :
    DepthInv descExA ∧ DepthInv descExB ∧
    is_descendant_of descExA descExA = true ∧
    (descExA ≠ descExB →
      (is_descendant_of descExA descExB = true ↔ Reach descExA descExB)) := by
  have hmain := is_descendant_of_spec descExA descExB inj_descEx
    depthInv_descExA depthInv_descExB
  exact ⟨depthInv_descExA, depthInv_descExB, hmain.1, hmain.2.1⟩

/-! ### `MonoRepoCommit` -/

abbrev SubRepoName := String

structure SubmoduleContent where
  repo_name : SubRepoName
  orig_commit_id : CommitId
deriving DecidableEq

inductive ExpandedSubmodule where
  | Expanded (submod : SubmoduleContent)
  | KeptAsSubmodule (commit_id : CommitId)
  | CommitMissingInSubRepo (submod : SubmoduleContent)
  | UnknownSubmodule (commit_id : CommitId)
  | RegressedNotFullyImplemented (submod : SubmoduleContent)
deriving DecidableEq

inductive ExpandedOrRemovedSubmodule where
  | Expanded (s : ExpandedSubmodule)
  | Removed
deriving DecidableEq

/-- Models `ExpandedSubmodule::get_known_submod`. -/
def ExpandedSubmodule.get_known_submod :
    ExpandedSubmodule → Option SubmoduleContent
  | ExpandedSubmodule.Expanded submod => some submod
  | ExpandedSubmodule.KeptAsSubmodule _ => none
  | ExpandedSubmodule.CommitMissingInSubRepo submod => some submod
  | ExpandedSubmodule.UnknownSubmodule _ => none
  | ExpandedSubmodule.RegressedNotFullyImplemented submod => some submod

/-- Models `ExpandedSubmodule::get_orig_commit_id`. -/
def ExpandedSubmodule.get_orig_commit_id : ExpandedSubmodule → CommitId
  | ExpandedSubmodule.Expanded submod => submod.orig_commit_id
  | ExpandedSubmodule.KeptAsSubmodule cid => cid
  | ExpandedSubmodule.CommitMissingInSubRepo submod => submod.orig_commit_id
  | ExpandedSubmodule.UnknownSubmodule cid => cid
  | ExpandedSubmodule.RegressedNotFullyImplemented submod => submod.orig_commit_id

mutual

inductive MonoRepoParent where
  | OriginalSubmod (path : GitPath) (commit_id : CommitId)
  | Mono (c : MonoRepoCommit)

inductive MonoRepoCommit where
  | mk (parents : List MonoRepoParent) (depth : Nat)
      (top_bump : Option CommitId)
      (submodule_bumps : List (GitPath × ExpandedOrRemovedSubmodule))
      (submodule_paths : List GitPath) : MonoRepoCommit

end

def MonoRepoCommit.parents : MonoRepoCommit → List MonoRepoParent
  | .mk ps _ _ _ _ => ps

def MonoRepoCommit.depth : MonoRepoCommit → Nat
  | .mk _ d _ _ _ => d

def MonoRepoCommit.top_bump : MonoRepoCommit → Option CommitId
  | .mk _ _ tb _ _ => tb

def MonoRepoCommit.submodule_bumps :
    MonoRepoCommit → List (GitPath × ExpandedOrRemovedSubmodule)
  | .mk _ _ _ bs _ => bs

def MonoRepoCommit.submodule_paths : MonoRepoCommit → List GitPath
  | .mk _ _ _ _ paths => paths

/-- The loop over `submodule_bumps` in `MonoRepoCommit::new_rc`. -/
def applyMonoBumps (bumps : List (GitPath × ExpandedOrRemovedSubmodule))
    (init : List GitPath) : List GitPath :=
  bumps.foldl (fun paths pb =>
    match pb.2 with
    | ExpandedOrRemovedSubmodule.Expanded _ => insertPath pb.1 paths
    | ExpandedOrRemovedSubmodule.Removed => erasePath pb.1 paths) init

/-- Models `MonoRepoCommit::new_rc`: the depth counts only `Mono` parents and
the path set is inherited from the first parent only when it is `Mono`. -/
def MonoRepoCommit.new_rc (parents : List MonoRepoParent)
    (top_bump : Option CommitId)
    (submodule_bumps : List (GitPath × ExpandedOrRemovedSubmodule)) :
    MonoRepoCommit :=
  MonoRepoCommit.mk parents
    (((parents.filterMap fun p =>
        match p with
        | MonoRepoParent.Mono parent => some (parent.depth + 1)
        | MonoRepoParent.OriginalSubmod _ _ => none).max?).getD 0)
    top_bump submodule_bumps
    (applyMonoBumps submodule_bumps
      (match parents.head? with
       | some (MonoRepoParent.Mono first_parent) => first_parent.submodule_paths
       | _ => []))

/-- The depths of the `Mono` parents, in order. -/
def monoDepths (parents : List MonoRepoParent) : List Nat :=
  parents.filterMap fun p =>
    match p with
    | MonoRepoParent.Mono parent => some parent.depth
    | MonoRepoParent.OriginalSubmod _ _ => none

theorem monoDepths_succ (parents : List MonoRepoParent) :
    (parents.filterMap fun p =>
        match p with
        | MonoRepoParent.Mono parent => some (parent.depth + 1)
        | MonoRepoParent.OriginalSubmod _ _ => none)
      = (monoDepths parents).map fun n => n + 1 := by
  induction parents with
  | nil => rfl
  | cons p ps ih =>
    cases p with
    | OriginalSubmod path cid =>
      show (ps.filterMap fun p =>
          match p with
          | MonoRepoParent.Mono parent => some (parent.depth + 1)
          | MonoRepoParent.OriginalSubmod _ _ => none)
        = (monoDepths ps).map fun n => n + 1
      exact ih
    | Mono parent =>
      show (parent.depth + 1) :: (ps.filterMap fun p =>
          match p with
          | MonoRepoParent.Mono parent => some (parent.depth + 1)
          | MonoRepoParent.OriginalSubmod _ _ => none)
        = (parent.depth + 1) :: ((monoDepths ps).map fun n => n + 1)
      rw [ih]

/-- C9: in `MonoRepoCommit::new_rc` only `Mono` parents contribute to the
depth (0 when there is none), and the inherited path set comes from the
first parent exactly when that parent is a `Mono` parent, the empty set
otherwise. -/
theorem mono_new_rc_spec (parents : List MonoRepoParent)
    (tb : Option CommitId)
    (bumps : List (GitPath × ExpandedOrRemovedSubmodule)) :
    (monoDepths parents = [] →
      (MonoRepoCommit.new_rc parents tb bumps).depth = 0) ∧
    (monoDepths parents ≠ [] →
      (MonoRepoCommit.new_rc parents tb bumps).depth
        = 1 + (monoDepths parents).foldr max 0) ∧
    (∀ (fp : MonoRepoCommit) (rest : List MonoRepoParent),
      parents = MonoRepoParent.Mono fp :: rest →
      (MonoRepoCommit.new_rc parents tb bumps).submodule_paths
        = applyMonoBumps bumps fp.submodule_paths) ∧
    ((¬ ∃ (fp : MonoRepoCommit) (rest : List MonoRepoParent),
        parents = MonoRepoParent.Mono fp :: rest) →
      (MonoRepoCommit.new_rc parents tb bumps).submodule_paths
        = applyMonoBumps bumps []) := by
  have hdepth : (MonoRepoCommit.new_rc parents tb bumps).depth
      = (((monoDepths parents).map fun n => n + 1).max?).getD 0 := by
    show (((parents.filterMap fun p =>
        match p with
        | MonoRepoParent.Mono parent => some (parent.depth + 1)
        | MonoRepoParent.OriginalSubmod _ _ => none).max?).getD 0) = _
    rw [monoDepths_succ]
  refine ⟨?_, ?_, ?_, ?_⟩
  · intro h
    rw [hdepth, max?_map_succ_getD, if_pos h]
  · intro h
    rw [hdepth, max?_map_succ_getD, if_neg h]
  · intro fp rest hps
    subst hps
    rfl
  · intro hnot
    cases hps : parents with
    | nil =>
      subst hps
      rfl
    | cons p rest =>
      cases p with
      | OriginalSubmod path cid =>
        subst hps
        rfl
      | Mono fp =>
        exact absurd ⟨fp, rest, hps⟩ hnot

/-- Witness for C9 with one `Mono` and one `OriginalSubmod` parent. -/
theorem mono_new_rc_spec_witness :
    monoDepths [MonoRepoParent.Mono (MonoRepoCommit.new_rc [] none []),
        MonoRepoParent.OriginalSubmod "s".data 5] ≠ [] ∧
    (MonoRepoCommit.new_rc
        [MonoRepoParent.Mono (MonoRepoCommit.new_rc [] none []),
         MonoRepoParent.OriginalSubmod "s".data 5] none []).depth
      = 1 + (monoDepths
          [MonoRepoParent.Mono (MonoRepoCommit.new_rc [] none []),
           MonoRepoParent.OriginalSubmod "s".data 5]).foldr max 0 :=
  ⟨by simp [monoDepths, MonoRepoCommit.new_rc],
   (mono_new_rc_spec _ none []).2.1
     (by simp [monoDepths, MonoRepoCommit.new_rc])⟩

/-! ### Per-group parent computation of `TopRepo::push` (lines 667-697) -/

inductive RepoName where
  | Top
  | SubRepo (name : SubRepoName)
deriving DecidableEq

/-- Lookup in the `HashMap<GitPath, ExpandedOrRemovedSubmodule>` of bumps. -/
def lookupMonoBump :
    List (GitPath × ExpandedOrRemovedSubmodule) → GitPath →
      Option ExpandedOrRemovedSubmodule
  | [], _ => none
  | (q, b) :: rest, p => if q = p then some b else lookupMonoBump rest p

/-- Modelled from the spec: `BumpCache::get_top_bump` lives in `expander.rs`,
which is not among the sources. Spec 4.4 step 4: for `Top`, "take each
mono-parent's `top_bump` if any". -/
def get_top_bump (m : MonoRepoCommit) : Option CommitId := m.top_bump

/-- Modelled from the spec: `BumpCache::get_some_submodule` lives in
`expander.rs`, which is not among the sources. Spec 4.4 step 4: for a
`SubRepo(s)`, "take each mono-parent's bump at `abs_sub_path` whose repo
is `s`". -/
def get_some_submodule (m : MonoRepoCommit) (abs_sub_path : GitPath)
    (s : SubRepoName) : Option ExpandedSubmodule :=
  match lookupMonoBump m.submodule_bumps abs_sub_path with
  | some (ExpandedOrRemovedSubmodule.Expanded es) =>
    match es.get_known_submod with
    | some sc => if sc.repo_name = s then some es else none
    | none => none
  | _ => none

/-- Append an element unless already present. -/
def appendUnique {α : Type} [DecidableEq α] (acc : List α) (k : α) : List α :=
  if k ∈ acc then acc else acc ++ [k]

/-- Models `itertools::unique`: de-duplicate preserving the order of first
occurrences. -/
def uniqueKeepFirst {α : Type} [DecidableEq α] (l : List α) : List α :=
  l.foldl appendUnique []

inductive PushStepError where
  | multipleSubmodulesNoTopic
  | topNoParents
  | submoduleMissingInParents (sub : SubRepoName) (path : GitPath)
deriving DecidableEq

/-- The `filter_map` body over `mono_parents` in `TopRepo::push`. -/
def parentBump (repo_name : RepoName) (abs_sub_path : GitPath)
    (mp : MonoRepoCommit) : Option CommitId :=
  match repo_name with
  | RepoName.Top => get_top_bump mp
  | RepoName.SubRepo s =>
    (get_some_submodule mp abs_sub_path s).map fun ps => ps.get_orig_commit_id

/-- The ordered, de-duplicated `parents_commit_ids` of one file-change
group. -/
def splitGroupParents (repo_name : RepoName) (abs_sub_path : GitPath)
    (mono_parents : List MonoRepoCommit) : List CommitId :=
  uniqueKeepFirst (mono_parents.filterMap (parentBump repo_name abs_sub_path))

/-- The `if parents.is_empty()` structural check of `TopRepo::push`. -/
def checkGroupParents (repo_name : RepoName) (abs_sub_path : GitPath)
    (mono_parents : List MonoRepoCommit) :
    Except PushStepError (List CommitId) :=
  let parents := splitGroupParents repo_name abs_sub_path mono_parents
  if parents.isEmpty then
    Except.error
      (match repo_name with
       | RepoName.Top => PushStepError.topNoParents
       | RepoName.SubRepo s => PushStepError.submoduleMissingInParents s abs_sub_path)
  else Except.ok parents

theorem foldl_append_unique_length_mono {α : Type} [DecidableEq α]
    (l : List α) :
    ∀ acc : List α, acc.length ≤ (l.foldl appendUnique acc).length := by
  induction l with
  | nil => intro acc; exact le_refl _
  | cons x xs ih =>
    intro acc
    rw [List.foldl_cons]
    unfold appendUnique
    by_cases hx : x ∈ acc
    · rw [if_pos hx]
      exact ih acc
    · rw [if_neg hx]
      refine le_trans ?_ (ih (acc ++ [x]))
      rw [List.length_append]
      omega

theorem uniqueKeepFirst_eq_nil_iff {α : Type} [DecidableEq α] (l : List α) :
    uniqueKeepFirst l = [] ↔ l = [] := by
  cases l with
  | nil => simp [uniqueKeepFirst]
  | cons x xs =>
    constructor
    · intro h
      exfalso
      have h1 := foldl_append_unique_length_mono xs ([] ++ [x])
      have ha : appendUnique ([] : List α) x = [] ++ [x] := by
        unfold appendUnique
        rw [if_neg (List.not_mem_nil x)]
      have hstep : uniqueKeepFirst (x :: xs)
          = xs.foldl appendUnique ([] ++ [x]) := by
        unfold uniqueKeepFirst
        rw [List.foldl_cons, ha]
      rw [hstep] at h
      rw [h] at h1
      simp at h1
    · intro h
      cases h

/-- C8: one file-change group fails with the structural error exactly when no
mono parent provides a bump for the target repo (`top_bump` for `Top`, a
matching submodule bump for a sub-repo), and the error names the repo
variant; with at least one parent the group succeeds with the ordered,
de-duplicated parent ids. -/
theorem checkGroupParents_spec (repo_name : RepoName) (abs_sub_path : GitPath)
    (mono_parents : List MonoRepoCommit) :
    (∀ e, checkGroupParents repo_name abs_sub_path mono_parents
        = Except.error e ↔
      ((∀ mp ∈ mono_parents, parentBump repo_name abs_sub_path mp = none) ∧
       e = match repo_name with
         | RepoName.Top => PushStepError.topNoParents
         | RepoName.SubRepo s =>
             PushStepError.submoduleMissingInParents s abs_sub_path)) ∧
    (splitGroupParents repo_name abs_sub_path mono_parents ≠ [] →
      checkGroupParents repo_name abs_sub_path mono_parents
        = Except.ok (splitGroupParents repo_name abs_sub_path mono_parents)) := by
  have hempty : splitGroupParents repo_name abs_sub_path mono_parents = [] ↔
      ∀ mp ∈ mono_parents, parentBump repo_name abs_sub_path mp = none := by
    unfold splitGroupParents
    rw [uniqueKeepFirst_eq_nil_iff, List.filterMap_eq_nil_iff]
  constructor
  · intro e
    unfold checkGroupParents
    by_cases h : splitGroupParents repo_name abs_sub_path mono_parents = []
    · rw [if_pos (by simpa [List.isEmpty_iff] using h)]
      simp only [Except.error.injEq]
      constructor
      · intro he
        exact ⟨hempty.mp h, he.symm⟩
      · intro he
        exact he.2.symm
    · rw [if_neg (by simpa [List.isEmpty_iff] using h)]
      constructor
      · intro he
        cases he
      · intro he
        exact absurd (hempty.mpr he.1) h
  · intro h
    unfold checkGroupParents
    rw [if_neg (by simpa [List.isEmpty_iff] using h)]

/-- Witness for C8 with one parent carrying a top bump. -/
theorem checkGroupParents_spec_witness :
    splitGroupParents RepoName.Top "x".data
        [MonoRepoCommit.new_rc [] (some 42) []] ≠ [] ∧
    checkGroupParents RepoName.Top "x".data
        [MonoRepoCommit.new_rc [] (some 42) []]
      = Except.ok (splitGroupParents RepoName.Top "x".data
          [MonoRepoCommit.new_rc [] (some 42) []]) :=
  ⟨by decide,
   (checkGroupParents_spec RepoName.Top "x".data
     [MonoRepoCommit.new_rc [] (some 42) []]).2 (by decide)⟩

/-! ### Grouping of file changes and the multi-submodule topic check
(`TopRepo::push`, lines 639-663) -/

/-- The `BTreeMap<(GitPath, RepoName, Url), Vec<ChangedFile>>` key. -/
abbrev GroupKey := GitPath × RepoName × Url

/-- A `ChangedFile`: relative path plus an opaque change payload. -/
abbrev FileChange := GitPath × String

/-- Map insertion grouping a changed file under its key; the map is used only
through its key set and sizes, so association-list insertion models the
`BTreeMap` entry API. -/
def insertGrouped (key : GroupKey) (v : FileChange) :
    List (GroupKey × List FileChange) → List (GroupKey × List FileChange)
  | [] => [(key, [v])]
  | (k, vs) :: rest =>
    if k = key then (k, vs ++ [v]) :: rest
    else (k, vs) :: insertGrouped key v rest

/-- The key of a file change as computed by `resolve_push_repo`: the resolver
returns `(repo_name, submod_path, rel_path, push_url)` and the grouping key
is `(submod_path, repo_name, push_url)`. -/
def keyOf (resolve : GitPath → RepoName × GitPath × GitPath × Url)
    (fc : FileChange) : GroupKey :=
  ((resolve fc.1).2.1, (resolve fc.1).1, (resolve fc.1).2.2.2)

/-- The `for fc in exported_mono_commit.file_changes` grouping loop. -/
def groupFileChanges (resolve : GitPath → RepoName × GitPath × GitPath × Url)
    (fcs : List FileChange) : List (GroupKey × List FileChange) :=
  fcs.foldl (fun m fc =>
    insertGrouped (keyOf resolve fc) ((resolve fc.1).2.2.1, fc.2) m) []

/-- The guard `grouped_file_changes.len() > 1 && topic.is_none()` of
`TopRepo::push`. -/
def checkTopic (groups : List (GroupKey × List FileChange))
    (message : List Char) : Option PushStepError :=
  if groups.length > 1 ∧ (rewrite_push_message message).2 = none
  then some PushStepError.multipleSubmodulesNoTopic
  else none

theorem keys_insertGrouped (key : GroupKey) (v : FileChange)
    (m : List (GroupKey × List FileChange)) :
    (insertGrouped key v m).map Prod.fst
      = appendUnique (m.map Prod.fst) key := by
  induction m with
  | nil => rfl
  | cons kv rest ih =>
    rcases kv with ⟨k, vs⟩
    have hunfold : insertGrouped key v ((k, vs) :: rest)
        = if k = key then (k, vs ++ [v]) :: rest
          else (k, vs) :: insertGrouped key v rest := rfl
    rw [hunfold]
    unfold appendUnique
    by_cases hk : k = key
    · subst hk
      rw [if_pos rfl, if_pos (by exact List.mem_cons_self _ _)]
      rfl
    · rw [if_neg hk, List.map_cons, ih]
      unfold appendUnique
      by_cases hmem : key ∈ rest.map Prod.fst
      · rw [if_pos hmem, if_pos (by exact List.mem_cons_of_mem _ hmem)]
        rfl
      · rw [if_neg hmem, if_neg (by
          intro hcon
          rcases List.mem_cons.mp hcon with he | hm
          · exact hk he.symm
          · exact hmem hm)]
        rfl

theorem groupFileChanges_keys
    (resolve : GitPath → RepoName × GitPath × GitPath × Url) :
    ∀ (fcs : List FileChange) (m : List (GroupKey × List FileChange)),
      (fcs.foldl (fun m fc =>
          insertGrouped (keyOf resolve fc) ((resolve fc.1).2.2.1, fc.2) m) m).map
        Prod.fst
      = fcs.foldl (fun acc fc => appendUnique acc (keyOf resolve fc))
          (m.map Prod.fst) := by
  intro fcs
  induction fcs with
  | nil => intro m; rfl
  | cons fc fcs' ih =>
    intro m
    rw [List.foldl_cons, List.foldl_cons, ih, keys_insertGrouped]

theorem groupFileChanges_length
    (resolve : GitPath → RepoName × GitPath × GitPath × Url)
    (fcs : List FileChange) :
    (groupFileChanges resolve fcs).length
      = (uniqueKeepFirst (fcs.map (keyOf resolve))).length := by
  have h1 := groupFileChanges_keys resolve fcs []
  have h2 : (groupFileChanges resolve fcs).length
      = ((groupFileChanges resolve fcs).map Prod.fst).length :=
    (List.length_map _ _).symm
  rw [h2]
  show ((fcs.foldl (fun m fc =>
      insertGrouped (keyOf resolve fc) ((resolve fc.1).2.2.1, fc.2) m) []).map
        Prod.fst).length = _
  rw [h1]
  unfold uniqueKeepFirst
  rw [List.foldl_map]
  rfl

theorem topic_none_iff (message : List Char) :
    (rewrite_push_message message).2 = none ↔
      ∀ line ∈ rustLines message, startsWithCh topicMarker line = false := by
  have hspec : (rewrite_push_message message).2
      = (topicNames (rustLines message)).getLast? := by
    unfold rewrite_push_message
    rw [rewrite_foldl]
    simp [Option.or_none]
  rw [hspec, List.getLast?_eq_none_iff]
  unfold topicNames
  rw [List.filterMap_eq_nil_iff]
  constructor
  · intro h line hline
    unfold startsWithCh
    rw [h line hline]
    rfl
  · intro h line hline
    rcases hs : stripPrefixCh topicMarker line with _ | r
    · rfl
    · have := h line hline
      rw [startsWithCh_of_strip hs] at this
      cases this

/-- C1: processing a mono commit raises the multiple-submodules-without-topic
error exactly when the file changes resolve to more than one
`(path, repo, push-url)` group and no line of the commit message starts with
the topic marker. -/
theorem push_topic_check_spec
    (resolve : GitPath → RepoName × GitPath × GitPath × Url)
    (fcs : List FileChange) (message : List Char) :
    checkTopic (groupFileChanges resolve fcs) message
        = some PushStepError.multipleSubmodulesNoTopic ↔
      (1 < (uniqueKeepFirst (fcs.map (keyOf resolve))).length ∧
       ∀ line ∈ rustLines message, startsWithCh topicMarker line = false) := by
  unfold checkTopic
  rw [groupFileChanges_length resolve fcs]
  by_cases h : 1 < (uniqueKeepFirst (fcs.map (keyOf resolve))).length ∧
      (rewrite_push_message message).2 = none
  · rw [if_pos h]
    simp only [true_iff]
    exact ⟨h.1, (topic_none_iff message).mp h.2⟩
  · rw [if_neg h]
    constructor
    · intro hc
      cases hc
    · rintro ⟨h1, h2⟩
      exact absurd ⟨h1, (topic_none_iff message).mpr h2⟩ h

/-- Witness for C1 at a concrete resolver, two file changes and a message
without a topic line. -/
theorem push_topic_check_spec_witness :
    checkTopic
        (groupFileChanges
          (fun p => (RepoName.SubRepo (String.mk p), p, p, "u"))
          [("a".data, "x"), ("b".data, "y")])
        "hello".data
      = some PushStepError.multipleSubmodulesNoTopic ↔
      (1 < (uniqueKeepFirst
          ([("a".data, "x"), ("b".data, "y")].map
            (keyOf fun p => (RepoName.SubRepo (String.mk p), p, p, "u")))).length ∧
       ∀ line ∈ rustLines "hello".data,
         startsWithCh topicMarker line = false) :=
  push_topic_check_spec
    (fun p => (RepoName.SubRepo (String.mk p), p, p, "u"))
    [("a".data, "x"), ("b".data, "y")] "hello".data

/-! ### `TopRepo::resolve_push_repo` -/

def dotGitmodulesName : GitPath := ".gitmodules".data

/-- Models `GitPath::join` (`git.rs` is not among the sources): joining with
an empty left side yields the right side, otherwise the parts are separated
by a slash. -/
def joinPath (a b : GitPath) : GitPath :=
  if a = [] then b else a ++ '/' :: b

/-- Modelled from the spec: `GitModulesInfo::get_containing_submodule`
(`gitmodules.rs` is not among the sources); spec 4.2 asks "which configured
submodule prefix contains `rel`". An entry `(path, url)` contains `rel`
exactly when `path` followed by a slash is a prefix of `rel`. -/
def get_containing_submodule (info : List (GitPath × Url)) (rel : GitPath) :
    Option (GitPath × Url) :=
  info.find? fun e => startsWithCh (e.1 ++ ['/']) rel

/-- Models `TopRepo::resolve_push_repo`. The mono commit's tree is abstracted
to the parsed `.gitmodules` content found at each path (`[]` when the file
is absent or empty, matching the `None => Vec::new()` fallback); gix URL
joining and the `config.get_or_insert_from_url` lookup are abstract
functions. -/
def resolve_push_repo (dgm : GitPath → List (GitPath × Url))
    (urlJoin : Url → Url → Url) (configName : Url → SubRepoName)
    (repo_name : RepoName) (repo_path rel_path : GitPath)
    (push_url generic_url : Url) : RepoName × GitPath × GitPath × Url :=
  match h : get_containing_submodule
      (dgm (joinPath repo_path dotGitmodulesName)) rel_path with
  | none => (repo_name, repo_path, rel_path, push_url)
  | some (submod_path, sub_url) =>
    resolve_push_repo dgm urlJoin configName
      (RepoName.SubRepo (configName (urlJoin generic_url sub_url)))
      (joinPath repo_path submod_path)
      ((stripPrefixCh (submod_path ++ ['/']) rel_path).getD rel_path)
      (urlJoin push_url sub_url)
      (urlJoin generic_url sub_url)
termination_by rel_path.length
decreasing_by
  have h' : (dgm (joinPath repo_path dotGitmodulesName)).find?
      (fun e => startsWithCh (e.1 ++ ['/']) rel_path)
      = some (submod_path, sub_url) := h
  have hpred' := List.find?_some h'
  have hpred : startsWithCh (submod_path ++ ['/']) rel_path = true := hpred'
  rcases stripPrefixCh_isSome_of_startsWith hpred with ⟨r, hr⟩
  have hsplit : rel_path = (submod_path ++ ['/']) ++ r :=
    stripPrefixCh_eq_some.mp hr
  rw [hr]
  show r.length < rel_path.length
  rw [hsplit, List.length_append, List.length_append, List.length_singleton]
  omega

/-- C7: with no `.gitmodules` entries at the repository root, the resolver
returns the current state unchanged: the Top repo, the empty repo path, the
queried path and the caller's push URL. -/
theorem resolve_push_repo_empty_gitmodules
    (dgm : GitPath → List (GitPath × Url)) (urlJoin : Url → Url → Url)
    (configName : Url → SubRepoName) (p : GitPath) (base generic : Url)
    (h : dgm dotGitmodulesName = []) :
    resolve_push_repo dgm urlJoin configName RepoName.Top [] p base generic
      = (RepoName.Top, [], p, base) := by
  have hj : joinPath [] dotGitmodulesName = dotGitmodulesName := by
    unfold joinPath
    rw [if_pos rfl]
  rw [resolve_push_repo]
  split
  · rfl
  · next sp su heq =>
      rw [hj, h] at heq
      cases heq

/-- Witness for C7 at a concrete empty tree. -/
theorem resolve_push_repo_empty_gitmodules_witness :
    (fun _ : GitPath => ([] : List (GitPath × Url))) dotGitmodulesName
        = [] ∧
    resolve_push_repo (fun _ => []) (fun a b => a ++ b) (fun u => u)
        RepoName.Top [] "a/b".data "u" ""
      = (RepoName.Top, [], "a/b".data, "u") :=
  ⟨rfl, resolve_push_repo_empty_gitmodules (fun _ => [])
    (fun a b => a ++ b) (fun u => u) "a/b".data "u" "" rfl⟩
